import Mathlib

/-!
Verification of the `scooter` file-moving utility (`mvfiles/mvfiles.go`).

The Go program is shallowly embedded below.  Strings are modelled by Lean
`String` (a list of Unicode scalar values).  Go operates on UTF-8 bytes, but
every byte-level operation the program performs (prefix tests against the
ASCII patterns `"."` and `"20"`, searching for the ASCII bytes `'/'` and
`'.'`, byte-wise lexicographic comparison) agrees with the corresponding
scalar-value-level operation on valid UTF-8 strings, except for `len`, which
is modelled explicitly as the UTF-8 byte length (`goStrLen`).

The macOS "date added" metadata lookup (`getDateAdded`) is an external OS
call; it is modelled as an oracle `dateOf : String → Except String LocalDate`
giving the local-time calendar year and month of the entry's added date, or
the lookup error.  The filesystem `os.Rename`/`os.MkdirAll` calls are
modelled by an oracle world `FsWorld` giving each call's outcome.
-/

/-! ### Generic character-list utilities -/

/-- `leadsWith s pat` is Go `strings.HasPrefix(s, pat)` on the character
lists of the two strings (byte-wise in Go; identical on the ASCII patterns
`"."` and `"20"` used by the program). -/
def leadsWith : List Char → List Char → Bool
  | _, [] => true
  | [], _ :: _ => false
  | c :: cs, p :: ps => c = p && leadsWith cs ps

/-- Split a character list at every occurrence of `sep` (the list of
`sep`-separated chunks; never empty). -/
def splitSl (sep : Char) : List Char → List (List Char)
  | [] => [[]]
  | c :: cs =>
    match splitSl sep cs with
    | [] => [[]]
    | g :: gs => if c = sep then [] :: g :: gs else (c :: g) :: gs

/-- Join chunks with `'/'` separators (inverse of `splitSl '/'`). -/
def joinSl : List (List Char) → List Char
  | [] => []
  | [c] => c
  | c :: cs => c ++ '/' :: joinSl cs

/-- UTF-8 byte length of a string: Go's `len(s)`. -/
def goStrLen (s : String) : Nat :=
  (s.data.map Char.utf8Size).sum

/-- ASCII lower-casing, as applied by Go `strings.ToLower` to ASCII input.
(Go applies the full Unicode simple case mapping; on the ASCII alphabet,
which covers the whole classification table and its inputs of interest, the
two agree.) -/
def lowerAscii (s : String) : String :=
  String.mk (s.data.map Char.toLower)

/-- The character of a decimal digit (`d < 10`). -/
def digChar (d : Nat) : Char :=
  if d = 0 then '0' else if d = 1 then '1' else if d = 2 then '2'
  else if d = 3 then '3' else if d = 4 then '4' else if d = 5 then '5'
  else if d = 6 then '6' else if d = 7 then '7' else if d = 8 then '8'
  else '9'

/-- Accumulator loop producing the decimal digits of `n` in front of
`acc`; `fuel` bounds the recursion depth (structural, so that concrete
values reduce inside the kernel). -/
def natDigsCore (fuel : Nat) (n : Nat) (acc : List Char) : List Char :=
  match fuel with
  | 0 => acc
  | fuel + 1 =>
    if n < 10 then digChar n :: acc
    else natDigsCore fuel (n / 10) (digChar (n % 10) :: acc)

/-- The decimal digits of a natural number, most significant first
(Go `fmt.Sprintf("%d", n)` for `n ≥ 0`); `n + 1` is always enough fuel. -/
def natDigs (n : Nat) : List Char :=
  natDigsCore (n + 1) n []

/-- Go `fmt.Sprintf("%d", y)` for an `int` year value. -/
def intDec (y : Int) : List Char :=
  if y < 0 then '-' :: natDigs y.natAbs else natDigs y.natAbs

/-- Go `fmt.Sprintf("%02d", m)`: zero-pad to (at least) two digits. -/
def fmt2 (m : Nat) : String :=
  if m < 10 then String.mk ('0' :: natDigs m) else String.mk (natDigs m)

/-- The year as rendered by Go `time.Format("2006")`: absolute value
zero-padded to at least four digits, with a leading `'-'` when negative. -/
def fmt4 (y : Int) : String :=
  let ds := natDigs y.natAbs
  let pad := List.replicate (4 - ds.length) '0' ++ ds
  String.mk (if y < 0 then '-' :: pad else pad)

/-! ### Path functions (`path` and `path/filepath`, Unix rules)

The program runs on macOS, where `filepath.Separator` is `'/'`, volume
names are empty and `path.Ext`/`filepath.Base` agree on the separator. -/

/-- One step of `filepath.Clean`'s element processing: `comp` is the next
slash-separated element, `acc` the already-output elements in reverse.
Empty and `"."` elements are dropped; `".."` pops the last real element,
accumulates at the front of a relative path, and is dropped at the root of
a rooted path; anything else is output.  `cleanPop` is the `".."` case. -/
def cleanPop (rooted : Bool) : List (List Char) → List (List Char)
  | [] => if rooted then [] else [['.', '.']]
  | h :: t => if h = ['.', '.'] then ['.', '.'] :: h :: t else t

def cleanStep (rooted : Bool) (acc : List (List Char)) (comp : List Char) :
    List (List Char) :=
  if comp = [] ∨ comp = ['.'] then acc
  else if comp = ['.', '.'] then cleanPop rooted acc
  else comp :: acc

/-- `filepath.Clean` on Unix, on character lists. -/
def goCleanL (p : List Char) : List Char :=
  match p with
  | [] => ['.']
  | c :: _ =>
    let rooted : Bool := c = '/'
    let stack := (splitSl '/' p).foldl (cleanStep rooted) []
    let body := joinSl stack.reverse
    if rooted then '/' :: body
    else if body = [] then ['.'] else body

/-- `filepath.Clean` on Unix. -/
def goClean (p : String) : String :=
  String.mk (goCleanL p.data)

/-- `filepath.Join(a, b)` on Unix: empty elements are skipped, the rest are
joined with `'/'` and cleaned. -/
def goJoin (a b : String) : String :=
  if a = "" then (if b = "" then "" else goClean b)
  else goClean (String.mk (a.data ++ '/' :: b.data))

/-- `filepath.Base` on Unix, on character lists: strip trailing slashes,
keep everything after the last remaining slash. -/
def goBaseL (p : List Char) : List Char :=
  if p = [] then ['.']
  else
    let q := (p.reverse.dropWhile (· = '/')).reverse
    let r := (q.reverse.takeWhile (· ≠ '/')).reverse
    if r = [] then ['/'] else r

/-- `filepath.Base` on Unix. -/
def goBase (p : String) : String :=
  String.mk (goBaseL p.data)

/-- `filepath.Dir` on Unix: everything up to and including the final slash,
cleaned (`Clean("")` is `"."` when there is no slash). -/
def goDir (p : String) : String :=
  goClean (String.mk ((p.data.reverse.dropWhile (· ≠ '/')).reverse))

/-- The scan of Go `path.Ext`: walk the path backwards (`rev` is the
reversed path, `acc` the characters already passed, in forward order);
return from the first `'.'` found, stop empty at a `'/'` or at the start. -/
def extScan : List Char → List Char → List Char
  | _, [] => []
  | acc, c :: cs =>
    if c = '/' then [] else if c = '.' then c :: acc else extScan (c :: acc) cs

/-- Go `path.Ext`: the suffix of the final path element beginning at its
final dot, empty if there is none. -/
def pathExt (p : String) : String :=
  String.mk (extScan [] p.data.reverse)

/-- Go `strings.TrimPrefix(s, ".")`. -/
def dropDot (s : String) : String :=
  match s.data with
  | '.' :: rest => String.mk rest
  | _ => s

/-- `filepath.IsAbs` on Unix. -/
def goIsAbs (p : String) : Bool :=
  leadsWith p.data ['/']

/-! ### The classifier (`getKind`) -/

/-- Go `unicode.IsSpace`: the Unicode white-space code points. -/
def goIsSpace (c : Char) : Bool :=
  c = ' ' || c = '\t' || c = '\n' || c.toNat = 11 || c.toNat = 12 ||
  c = '\r' || c.toNat = 0x85 || c.toNat = 0xA0 || c.toNat = 0x1680 ||
  (0x2000 ≤ c.toNat && c.toNat ≤ 0x200A) || c.toNat = 0x2028 ||
  c.toNat = 0x2029 || c.toNat = 0x202F || c.toNat = 0x205F || c.toNat = 0x3000

/-- Go `strings.Fields`: the maximal runs of non-white-space characters. -/
def goFields (s : String) : List String :=
  ((s.data.splitOnP goIsSpace).filter (· ≠ [])).map String.mk

/-- The part of `s` before the first `':'` — the first component of
`strings.Cut(s, ":")` as used in `getKind`. -/
def cutBefore (s : String) : String :=
  String.mk (s.data.takeWhile (· ≠ ':'))

/-- The part of `s` after the first `':'` — the second component of
`strings.Cut(s, ":")` as used in `getKind`. -/
def cutAfter (s : String) : String :=
  String.mk ((s.data.dropWhile (· ≠ ':')).drop 1)

/-- The classification table literal from `getKind`, verbatim (including
the double space in the image row). -/
def kindTable : List String :=
  ["archive: bz dmg gz tar tbz2 zip",
   "audio: aac m4a mp3 wav",
   "data: csv json xls xlsx",
   "doc: doc docx pages pdf rtf rtfd txt",
   "book: epub",
   "image: avif bmp gif heic jpg jpeg  png svg tif webp",
   "video: avi mp4 mpeg",
   "web: css html ico js sass"]

/-- The table-lookup loop of `getKind`: the first row whose extension list
contains `ext` names the kind; otherwise `"misc"`. -/
def kindLookup (ext : String) : String :=
  match kindTable.find? (fun s => (goFields (cutAfter s)).contains ext) with
  | some s => cutBefore s
  | none => "misc"

/-- The classifier applied by `getKind` to a dot-stripped extension string:
lower-case it and look it up in the table. -/
def classify (ext : String) : String :=
  kindLookup (lowerAscii ext)

/-- Go `getKind(name)`: extension of the final path element, dot stripped,
lower-cased, looked up in the table. -/
def getKind (name : String) : String :=
  classify (dropDot (pathExt name))

/-! ### Data model -/

/-- The local-time calendar date (year and month) of an entry's added-date,
as produced by `time.Time.Year()`/`Month()` on the timestamp returned by
`getDateAdded`.  (`Month()` is always in 1..12.) -/
structure LocalDate where
  year : Int
  month : Nat
deriving DecidableEq, Repr

/-- One entry of the `os.ReadDir` listing: its name (no path separators,
never `"."` or `".."`) and whether it is a directory. -/
structure DirEntry where
  name : String
  isDir : Bool
deriving DecidableEq, Repr

/-- The program configuration (`appEnv`); the logger is omitted as it only
affects diagnostics, never behaviour. -/
structure AppEnv where
  dir : String
  excludeDirs : Bool
  dryRun : Bool
deriving DecidableEq, Repr

/-- A planned move: the `pair{old, new}` of `Exec`. -/
structure MovePair where
  old : String
  new : String
deriving DecidableEq, Repr

/-- Outcomes of the filesystem calls made while applying the batch:
`mkdirErr d` is the error (if any) of `os.MkdirAll(d, 0o744)` and
`renameErr old new` the error (if any) of `os.Rename(old, new)`. -/
structure FsWorld where
  mkdirErr : String → Option String
  renameErr : String → String → Option String

/-- The operational record of the non-dry-run loop of `Exec`:
renames that were applied, renames that were attempted (applied ones plus
the failing one, if any), the `MkdirAll` targets invoked, and the returned
error. -/
structure ApplyResult where
  renamed : List (String × String)
  attempted : List (String × String)
  mkdirs : List String
  err : Option String
deriving DecidableEq, Repr

/-- The observable outcome of one `Exec` run: what was written to standard
output, the filesystem mutations, and the returned error. -/
structure ExecOutcome where
  stdout : String
  renamed : List (String × String)
  attempted : List (String × String)
  mkdirs : List String
  err : Option String
deriving DecidableEq, Repr

/-! ### Planner and batch builder (`buildName` and the body of `Exec`) -/

/-- Go `buildName(path)`: look up the added date, classify, and format
`"%d/%02d/%s/%s"` from year, month, kind and `filepath.Base(path)`. -/
def buildName (dateOf : String → Except String LocalDate) (p : String) :
    Except String String :=
  match dateOf p with
  | .error e => .error e
  | .ok d =>
      .ok (String.mk (intDec d.year) ++ "/" ++ fmt2 d.month ++ "/" ++
           getKind p ++ "/" ++ goBase p)

/-- One file entry's `pair{path, filepath.Join(app.dir, newname)}`. -/
def filePlan (dateOf : String → Except String LocalDate) (cfg : AppEnv)
    (p : String) : Except String MovePair :=
  match buildName dateOf p with
  | .error e => .error e
  | .ok newname => .ok ⟨p, goJoin cfg.dir newname⟩

/-- One directory entry's pair: `date.Format("2006/01/") + name` joined
under the base directory. -/
def dirPlan (dateOf : String → Except String LocalDate) (cfg : AppEnv)
    (p : String) : Except String MovePair :=
  match dateOf p with
  | .error e => .error e
  | .ok d =>
      let name := goBase p
      let newname := fmt4 d.year ++ "/" ++ fmt2 d.month ++ "/" ++ name
      .ok ⟨p, goJoin cfg.dir newname⟩

/-- The file-candidate filter of `Exec`: skip directories and entries whose
name starts with `"."`. -/
def isFileCand (e : DirEntry) : Bool :=
  !e.isDir && !leadsWith e.name.data ['.']

/-- The directory-candidate filter of `Exec`: directories whose name does
not start with `"."` and is not year-like (`len(name) == 4` in bytes and
starting with `"20"`). -/
def isDirCand (e : DirEntry) : Bool :=
  e.isDir && !leadsWith e.name.data ['.'] &&
  !(goStrLen e.name = 4 && leadsWith e.name.data ['2', '0'])

/-- The `paths` slice of `Exec`: candidate files joined under the base
directory, in listing order. -/
def filePaths (cfg : AppEnv) (entries : List DirEntry) : List String :=
  (entries.filter isFileCand).map (fun e => goJoin cfg.dir e.name)

/-- The `dirpaths` slice of `Exec`. -/
def dirPaths (cfg : AppEnv) (entries : List DirEntry) : List String :=
  (entries.filter isDirCand).map (fun e => goJoin cfg.dir e.name)

/-- Strict lexicographic comparison on scalar-value sequences: the order
computed by Go `cmp.Compare` on strings (byte-wise comparison of the UTF-8
encodings coincides with scalar-value lexicographic comparison on valid
UTF-8). -/
def strLtL : List Char → List Char → Bool
  | [], [] => false
  | [], _ :: _ => true
  | _ :: _, [] => false
  | a :: as, b :: bs =>
    if a = b then strLtL as bs else decide (a.toNat < b.toNat)

/-- The destination ordering used by `slices.SortFunc`'s comparator
`cmp.Compare(a.new, b.new)`: `a` sorts no later than `b`. -/
def destLe (a b : MovePair) : Prop :=
  strLtL b.new.data a.new.data = false

/-- Strict destination order, used to show the sorted batch is unique. -/
def destLt (a b : MovePair) : Prop :=
  strLtL a.new.data b.new.data = true

instance : DecidableRel destLe := fun a b =>
  inferInstanceAs (Decidable (_ = false))

instance : DecidableRel destLt := fun a b =>
  inferInstanceAs (Decidable (_ = true))

/-- The `slices.SortFunc(pairs, ...)` call, sorting the batch by
destination.  Go's `slices.SortFunc` is an unstable pdqsort whose exact
permutation of equal keys is unspecified; it is modelled by insertion sort,
which agrees with it (and with every correct sort) whenever the keys are
pairwise distinct — established for every reachable batch by the
destination-distinctness lemma below. -/
def sortByDest (ps : List MovePair) : List MovePair :=
  ps.insertionSort destLe

/-- The batch-building phase of `Exec`: plan all candidate files, then
(unless `excludeDirs`) all candidate directories, aborting on the first
date-lookup error, and sort the combined batch by destination. -/
def buildPairs (dateOf : String → Except String LocalDate) (cfg : AppEnv)
    (entries : List DirEntry) : Except String (List MovePair) :=
  match (filePaths cfg entries).mapM (filePlan dateOf cfg) with
  | .error e => .error e
  | .ok fps =>
    match (if cfg.excludeDirs then pure [] else
        (dirPaths cfg entries).mapM (dirPlan dateOf cfg)) with
    | .error e => .error e
    | .ok dps => .ok (sortByDest (fps ++ dps))

/-- The paths whose added-date is looked up during batch construction. -/
def eligiblePaths (cfg : AppEnv) (entries : List DirEntry) : List String :=
  filePaths cfg entries ++
  (if cfg.excludeDirs then [] else dirPaths cfg entries)

/-! ### Executor: CSV dry-run report and the rename loop -/

/-- Go `encoding/csv`'s `fieldNeedsQuotes` with the default comma and
`UseCRLF = false`. -/
def csvNeedsQuote (f : String) : Bool :=
  match f.data with
  | [] => false
  | c :: cs =>
    if f = "\\." then true
    else if (c :: cs).any (fun x => x = ',' || x = '"' || x = '\r' || x = '\n')
    then true
    else goIsSpace c

/-- One CSV field as written by `csv.Writer.Write` (quoted with doubled
quotes when needed). -/
def csvField (f : String) : String :=
  if csvNeedsQuote f then
    "\"" ++
      String.mk (f.data.flatMap fun c => if c = '"' then ['"', '"'] else [c])
      ++ "\""
  else f

/-- One CSV record: comma-separated fields terminated by `'\n'`. -/
def csvRow (r : List String) : String :=
  String.intercalate "," (r.map csvField) ++ "\n"

/-- The full CSV output of a sequence of records. -/
def csvRender (rows : List (List String)) : String :=
  String.join (rows.map csvRow)

/-- The non-dry-run loop of `Exec`: for each pair, invoke
`os.MkdirAll(filepath.Dir(p.new), 0o744)` — whose error the source
explicitly discards (`_ =`) — then `os.Rename(p.old, p.new)`, returning
the first rename error and stopping there. -/
def applyPairs (w : FsWorld) : List MovePair → ApplyResult
  | [] => ⟨[], [], [], none⟩
  | p :: rest =>
    let d := goDir p.new
    let _mkdirOutcome := w.mkdirErr d
    match w.renameErr p.old p.new with
    | some e => ⟨[], [(p.old, p.new)], [d], some e⟩
    | none =>
      let r := applyPairs w rest
      ⟨(p.old, p.new) :: r.renamed, (p.old, p.new) :: r.attempted,
       d :: r.mkdirs, r.err⟩

/-- The whole of `Exec` after the directory listing: build the batch
(aborting on a date-lookup error before any filesystem mutation), then
either print the CSV report (dry run) or apply the renames. -/
def execModel (dateOf : String → Except String LocalDate) (w : FsWorld)
    (cfg : AppEnv) (entries : List DirEntry) : ExecOutcome :=
  match buildPairs dateOf cfg entries with
  | .error e => ⟨"", [], [], [], some e⟩
  | .ok pairs =>
    if cfg.dryRun then
      ⟨csvRender (["old", "new"] :: pairs.map (fun p => [p.old, p.new])),
       [], [], [], none⟩
    else
      let r := applyPairs w pairs
      ⟨"", r.renamed, r.attempted, r.mkdirs, r.err⟩

/-! ### Reference data from the specification (§4.1) -/

/-- The nine category labels of the specification. -/
def specLabels : List String :=
  ["archive", "audio", "data", "doc", "book", "image", "video", "web", "misc"]

/-- The extension → category reference table of §4.1 of the specification,
spelled out pair by pair. -/
def specTable41 : List (String × String) :=
  [("bz", "archive"), ("dmg", "archive"), ("gz", "archive"),
   ("tar", "archive"), ("tbz2", "archive"), ("zip", "archive"),
   ("aac", "audio"), ("m4a", "audio"), ("mp3", "audio"), ("wav", "audio"),
   ("csv", "data"), ("json", "data"), ("xls", "data"), ("xlsx", "data"),
   ("doc", "doc"), ("docx", "doc"), ("pages", "doc"), ("pdf", "doc"),
   ("rtf", "doc"), ("rtfd", "doc"), ("txt", "doc"),
   ("epub", "book"),
   ("avif", "image"), ("bmp", "image"), ("gif", "image"), ("heic", "image"),
   ("jpg", "image"), ("jpeg", "image"), ("png", "image"), ("svg", "image"),
   ("tif", "image"), ("webp", "image"),
   ("avi", "video"), ("mp4", "video"), ("mpeg", "video"),
   ("css", "web"), ("html", "web"), ("ico", "web"), ("js", "web"),
   ("sass", "web")]

/-- All extensions appearing in the §4.1 table. -/
def specExts : List String :=
  specTable41.map Prod.fst

/-! ### Well-formedness notions used by the theorems -/

/-- A well-formed path component: nonempty, not a `Clean`-special element
(`"."` / `".."`), and free of separators. -/
def wfComp (c : List Char) : Prop :=
  c ≠ [] ∧ c ≠ ['.'] ∧ c ≠ ['.', '.'] ∧ '/' ∉ c

instance wfCompDec (c : List Char) : Decidable (wfComp c) :=
  decidable_of_iff (c ≠ [] ∧ c ≠ ['.'] ∧ c ≠ ['.', '.'] ∧ '/' ∉ c) Iff.rfl

/-- What `os.ReadDir` guarantees about every listed entry's name: nonempty,
no path separator, and neither `"."` nor `".."`. -/
def entryWf (e : DirEntry) : Prop :=
  e.name ≠ "" ∧ '/' ∉ e.name.data ∧ e.name ≠ "." ∧ e.name ≠ ".."

instance entryWfDec (e : DirEntry) : Decidable (entryWf e) :=
  decidable_of_iff
    (e.name ≠ "" ∧ '/' ∉ e.name.data ∧ e.name ≠ "." ∧ e.name ≠ "..") Iff.rfl

/-- What `os.ReadDir` guarantees about a whole listing: every entry
well-formed and all names distinct (a directory cannot contain two entries
of the same name). -/
def listingWf (entries : List DirEntry) : Prop :=
  (∀ e ∈ entries, entryWf e) ∧ (entries.map DirEntry.name).Nodup

instance listingWfDec (entries : List DirEntry) : Decidable (listingWf entries) :=
  decidable_of_iff
    ((∀ e ∈ entries, entryWf e) ∧ (entries.map DirEntry.name).Nodup) Iff.rfl

/-- Extract the value of a successful plan (arbitrary default otherwise);
used to express a successful `mapM` as a `map`. -/
def getOkPair : Except String MovePair → MovePair
  | .ok v => v
  | .error _ => ⟨"", ""⟩

/-- ASCII-only strings, on which the modelled `strings.ToLower` agrees with
Go's Unicode one. -/
def asciiOnly (s : String) : Prop :=
  ∀ c ∈ s.data, c.toNat < 128

instance asciiOnlyDec (s : String) : Decidable (asciiOnly s) :=
  decidable_of_iff (∀ c ∈ s.data, c.toNat < 128) Iff.rfl

/-! ### Lemmas about splitting and joining path elements -/

theorem splitSl_ne_nil (sep : Char) (l : List Char) : splitSl sep l ≠ [] := by
  cases l with
  | nil => simp [splitSl]
  | cons c cs =>
    simp only [splitSl]
    rcases h : splitSl sep cs with _ | ⟨g, gs⟩
    · simp
    · by_cases hc : c = sep <;> simp [hc]

theorem splitSl_cons (sep c : Char) (cs : List Char) (g : List Char)
    (gs : List (List Char)) (h : splitSl sep cs = g :: gs) :
    splitSl sep (c :: cs) =
      if c = sep then [] :: g :: gs else (c :: g) :: gs := by
  simp only [splitSl, h]

theorem splitSl_append (sep : Char) (a b : List Char) :
    splitSl sep (a ++ sep :: b) = splitSl sep a ++ splitSl sep b := by
  induction a with
  | nil =>
    rcases h : splitSl sep b with _ | ⟨g, gs⟩
    · exact absurd h (splitSl_ne_nil sep b)
    · rw [List.nil_append, splitSl_cons sep sep b g gs h, if_pos rfl]
      simp [splitSl, h]
  | cons c cs ih =>
    rcases h : splitSl sep cs with _ | ⟨g, gs⟩
    · exact absurd h (splitSl_ne_nil sep cs)
    · have h2 : splitSl sep (cs ++ sep :: b) = (g :: gs) ++ splitSl sep b := by
        rw [ih, h]
      rw [List.cons_append,
          splitSl_cons sep c (cs ++ sep :: b) g (gs ++ splitSl sep b)
            (by simpa using h2),
          splitSl_cons sep c cs g gs h]
      by_cases hc : c = sep
      · simp [hc]
      · simp [hc]

theorem splitSl_no_sep (sep : Char) (l : List Char) (h : sep ∉ l) :
    splitSl sep l = [l] := by
  induction l with
  | nil => simp [splitSl]
  | cons c cs ih =>
    have hc : c ≠ sep := fun hh => h (hh ▸ List.mem_cons_self c cs)
    have hcs : sep ∉ cs := fun hh => h (List.mem_cons_of_mem c hh)
    rw [splitSl_cons sep c cs cs [] (ih hcs), if_neg hc]

theorem mem_splitSl_no_sep (sep : Char) (l : List Char) :
    ∀ c ∈ splitSl sep l, sep ∉ c := by
  induction l with
  | nil => simp [splitSl]
  | cons c cs ih =>
    rcases h : splitSl sep cs with _ | ⟨g, gs⟩
    · exact absurd h (splitSl_ne_nil sep cs)
    · rw [h] at ih
      intro x hx
      rw [splitSl_cons sep c cs g gs h] at hx
      by_cases hc : c = sep
      · rw [if_pos hc] at hx
        rcases List.mem_cons.1 hx with rfl | hx2
        · simp
        · exact ih x hx2
      · rw [if_neg hc] at hx
        rcases List.mem_cons.1 hx with rfl | hx2
        · intro hm
          rcases List.mem_cons.1 hm with rfl | hm2
          · exact hc rfl
          · exact ih g (List.mem_cons_self g gs) hm2
        · exact ih x (List.mem_cons_of_mem g hx2)

theorem joinSl_cons (c : List Char) (cs : List (List Char)) (h : cs ≠ []) :
    joinSl (c :: cs) = c ++ '/' :: joinSl cs := by
  cases cs with
  | nil => exact absurd rfl h
  | cons d ds => rfl

theorem joinSl_splitSl (l : List Char) : joinSl (splitSl '/' l) = l := by
  induction l with
  | nil => simp [splitSl, joinSl]
  | cons c cs ih =>
    rcases h : splitSl '/' cs with _ | ⟨g, gs⟩
    · exact absurd h (splitSl_ne_nil '/' cs)
    · rw [h] at ih
      rw [splitSl_cons '/' c cs g gs h]
      by_cases hc : c = '/'
      · rw [if_pos hc, joinSl_cons [] (g :: gs) (by simp), List.nil_append, ih,
          hc]
      · rw [if_neg hc]
        cases gs with
        | nil =>
          simp only [joinSl] at ih ⊢
          rw [ih]
        | cons g1 gs1 =>
          rw [joinSl_cons (c :: g) (g1 :: gs1) (by simp)]
          rw [joinSl_cons g (g1 :: gs1) (by simp)] at ih
          rw [List.cons_append, ih]

theorem splitSl_joinSl (parts : List (List Char)) (hp : parts ≠ [])
    (hwf : ∀ c ∈ parts, '/' ∉ c) :
    splitSl '/' (joinSl parts) = parts := by
  induction parts with
  | nil => exact absurd rfl hp
  | cons c cs ih =>
    cases cs with
    | nil => simpa [joinSl] using splitSl_no_sep '/' c (hwf c (by simp))
    | cons d ds =>
      rw [joinSl_cons c (d :: ds) (by simp), splitSl_append,
          splitSl_no_sep '/' c (hwf c (by simp)),
          ih (by simp) (fun x hx => hwf x (List.mem_cons_of_mem c hx))]
      rfl

theorem cleanStep_push (rooted : Bool) (acc : List (List Char))
    (c : List Char) (h : wfComp c) : cleanStep rooted acc c = c :: acc := by
  obtain ⟨h1, h2, h3, _⟩ := h
  simp [cleanStep, h1, h2, h3]

theorem foldl_cleanStep_wf (rooted : Bool) (comps : List (List Char))
    (hwf : ∀ c ∈ comps, wfComp c) (acc : List (List Char)) :
    comps.foldl (cleanStep rooted) acc = comps.reverse ++ acc := by
  induction comps generalizing acc with
  | nil => simp
  | cons c cs ih =>
    rw [List.foldl_cons, cleanStep_push rooted acc c (hwf c (by simp)),
        ih (fun x hx => hwf x (List.mem_cons_of_mem c hx))]
    simp

theorem foldl_cleanStep_inv (rooted : Bool) (comps : List (List Char))
    (hcomps : ∀ c ∈ comps, '/' ∉ c) (acc : List (List Char))
    (hacc : ∀ c ∈ acc, c ≠ [] ∧ '/' ∉ c) :
    ∀ c ∈ comps.foldl (cleanStep rooted) acc, c ≠ [] ∧ '/' ∉ c := by
  induction comps generalizing acc with
  | nil => exact hacc
  | cons c cs ih =>
    rw [List.foldl_cons]
    refine ih (fun x hx => hcomps x (List.mem_cons_of_mem c hx)) _ ?_
    intro x hx
    have hc : '/' ∉ c := hcomps c (by simp)
    by_cases h1 : c = [] ∨ c = ['.']
    · rw [cleanStep, if_pos h1] at hx
      exact hacc x hx
    · by_cases h2 : c = ['.', '.']
      · rw [cleanStep, if_neg h1, if_pos h2] at hx
        rcases hh : acc with _ | ⟨a0, arest⟩
        · subst hh
          cases rooted with
          | false =>
            have hx2 : x ∈ [['.', '.']] := by simpa [cleanPop] using hx
            rcases List.mem_singleton.1 hx2 with rfl
            exact ⟨by simp, by decide⟩
          | true => simp [cleanPop] at hx
        · subst hh
          simp only [cleanPop] at hx
          by_cases h3 : a0 = ['.', '.']
          · rw [if_pos h3] at hx
            rcases List.mem_cons.1 hx with rfl | hx2
            · exact ⟨by simp, by decide⟩
            · exact hacc x hx2
          · rw [if_neg h3] at hx
            exact hacc x (List.mem_cons_of_mem a0 hx)
      · rw [cleanStep, if_neg h1, if_neg h2] at hx
        rcases List.mem_cons.1 hx with rfl | hx2
        · exact ⟨fun hnil => h1 (Or.inl hnil), hc⟩
        · exact hacc x hx2

theorem joinSl_append (L1 L2 : List (List Char)) (h1 : L1 ≠ []) (h2 : L2 ≠ []) :
    joinSl (L1 ++ L2) = joinSl L1 ++ '/' :: joinSl L2 := by
  induction L1 with
  | nil => exact absurd rfl h1
  | cons c cs ih =>
    cases cs with
    | nil =>
      cases L2 with
      | nil => exact absurd rfl h2
      | cons d ds => simp [joinSl_cons c (d :: ds) (by simp), joinSl]
    | cons c1 cs1 =>
      rw [List.cons_append, joinSl_cons c ((c1 :: cs1) ++ L2) (by simp),
          joinSl_cons c (c1 :: cs1) (by simp), ih (by simp)]
      simp

theorem joinSl_ne_nil_of_mem (L : List (List Char)) (c : List Char)
    (hc : c ∈ L) (hne : c ≠ []) : joinSl L ≠ [] := by
  cases L with
  | nil => cases hc
  | cons x xs =>
    cases xs with
    | nil =>
      rcases List.mem_singleton.1 hc with rfl
      simpa [joinSl] using hne
    | cons y ys =>
      rw [joinSl_cons x (y :: ys) (by simp)]
      simp

/-- `Clean` leaves a slash-free well-formed relative chain unchanged. -/
theorem goCleanL_wfChain (parts : List (List Char)) (hp : parts ≠ [])
    (hwf : ∀ c ∈ parts, wfComp c) : goCleanL (joinSl parts) = joinSl parts := by
  obtain ⟨p0, rest, rfl⟩ : ∃ p0 rest, parts = p0 :: rest := by
    cases parts with
    | nil => exact absurd rfl hp
    | cons a b => exact ⟨a, b, rfl⟩
  obtain ⟨c0, p0r, rfl⟩ : ∃ c0 p0r, p0 = c0 :: p0r := by
    rcases h0 : p0 with _ | ⟨a, b⟩
    · exact absurd (h0 ▸ (hwf p0 (by simp)).1) (by simp [h0])
    · exact ⟨a, b, rfl⟩
  have hc0 : c0 ≠ '/' := by
    intro h
    exact (hwf (c0 :: p0r) (by simp)).2.2.2 (h ▸ List.mem_cons_self c0 p0r)
  have hjoin : ∃ tl, joinSl ((c0 :: p0r) :: rest) = c0 :: tl := by
    cases rest with
    | nil => exact ⟨p0r, rfl⟩
    | cons r rs =>
      rw [joinSl_cons (c0 :: p0r) (r :: rs) (by simp)]
      exact ⟨p0r ++ '/' :: joinSl (r :: rs), rfl⟩
  obtain ⟨tl, htl⟩ := hjoin
  rw [htl]
  have hroot : (decide (c0 = '/')) = false := by simp [hc0]
  have hsplit : splitSl '/' (c0 :: tl) = (c0 :: p0r) :: rest := by
    rw [← htl]
    exact splitSl_joinSl _ (by simp) (fun c hc => (hwf c hc).2.2.2)
  have hfold :
      (splitSl '/' (c0 :: tl)).foldl (cleanStep (decide (c0 = '/'))) [] =
      ((c0 :: p0r) :: rest).reverse := by
    rw [hsplit, foldl_cleanStep_wf _ _ hwf]
    simp
  have hbody : joinSl (((c0 :: p0r) :: rest).reverse).reverse = c0 :: tl := by
    rw [List.reverse_reverse, htl]
  rw [hroot] at hfold
  simp only [goCleanL, hroot, hfold, hbody]
  simp

/-- The shape of `Clean(dir ++ "/" ++ rel)` when `rel` is a slash-joined
chain of well-formed components: an optional root slash, some inert prefix
components coming from `dir`, then the chain itself, unchanged. -/
theorem goCleanL_join_shape (dir : List Char) (hd : dir ≠ [])
    (parts : List (List Char)) (hp : parts ≠ [])
    (hwf : ∀ c ∈ parts, wfComp c) :
    ∃ optRoot S, (optRoot = [] ∨ optRoot = ['/']) ∧
      (∀ c ∈ S, c ≠ [] ∧ '/' ∉ c) ∧
      goCleanL (dir ++ '/' :: joinSl parts) = optRoot ++ joinSl (S ++ parts) := by
  obtain ⟨d0, drest, rfl⟩ : ∃ d0 drest, dir = d0 :: drest := by
    cases dir with
    | nil => exact absurd rfl hd
    | cons a b => exact ⟨a, b, rfl⟩
  have hsplit : splitSl '/' (d0 :: (drest ++ '/' :: joinSl parts)) =
      splitSl '/' (d0 :: drest) ++ parts := by
    rw [← List.cons_append, splitSl_append,
        splitSl_joinSl parts hp (fun c hc => (hwf c hc).2.2.2)]
  have hfold :
      (splitSl '/' (d0 :: (drest ++ '/' :: joinSl parts))).foldl
        (cleanStep (decide (d0 = '/'))) [] =
      parts.reverse ++
        ((splitSl '/' (d0 :: drest)).foldl (cleanStep (decide (d0 = '/'))) []) := by
    rw [hsplit, List.foldl_append, foldl_cleanStep_wf _ parts hwf]
  have hSwf : ∀ c ∈ (splitSl '/' (d0 :: drest)).foldl
      (cleanStep (decide (d0 = '/'))) [], c ≠ [] ∧ '/' ∉ c :=
    foldl_cleanStep_inv _ _ (mem_splitSl_no_sep '/' _) [] (by simp)
  set S0 := (splitSl '/' (d0 :: drest)).foldl (cleanStep (decide (d0 = '/'))) []
    with hS0
  have hbody : joinSl (parts.reverse ++ S0).reverse = joinSl (S0.reverse ++ parts) := by
    rw [List.reverse_append, List.reverse_reverse]
  have hbne : joinSl (S0.reverse ++ parts) ≠ [] := by
    obtain ⟨p0, rest, rfl⟩ : ∃ p0 rest, parts = p0 :: rest := by
      cases parts with
      | nil => exact absurd rfl hp
      | cons a b => exact ⟨a, b, rfl⟩
    exact joinSl_ne_nil_of_mem _ p0 (by simp) (hwf p0 (by simp)).1
  by_cases hr : d0 = '/'
  · refine ⟨['/'], S0.reverse, Or.inr rfl, ?_, ?_⟩
    · intro c hc
      exact hSwf c (List.mem_reverse.1 hc)
    · rw [List.cons_append]
      simp only [goCleanL, hfold, hbody]
      simp [hr]
  · refine ⟨[], S0.reverse, Or.inl rfl, ?_, ?_⟩
    · intro c hc
      exact hSwf c (List.mem_reverse.1 hc)
    · rw [List.cons_append]
      simp only [goCleanL, hfold, hbody]
      simp [hr, hbne]

theorem takeWhile_all_append (p : Char → Bool) (xs ys : List Char)
    (h : ∀ c ∈ xs, p c) :
    List.takeWhile p (xs ++ ys) = xs ++ List.takeWhile p ys := by
  induction xs with
  | nil => simp
  | cons c cs ih =>
    rw [List.cons_append, List.takeWhile_cons, if_pos (h c (by simp)),
        ih (fun x hx => h x (List.mem_cons_of_mem c hx))]
    rfl

/-- A cleaned joined path decomposes as some slash-terminated (or empty)
prefix followed by its final component. -/
theorem shape_decomp (optRoot : List Char) (S : List (List Char))
    (last : List Char) (hroot : optRoot = [] ∨ optRoot = ['/']) :
    ∃ pre, optRoot ++ joinSl (S ++ [last]) = pre ++ last ∧
      (pre = [] ∨ pre.getLast? = some '/') := by
  rcases hS0 : S with _ | ⟨s0, srest⟩
  · rcases hroot with h | h
    · exact ⟨[], by simp [h, joinSl], Or.inl rfl⟩
    · exact ⟨['/'], by simp [h, joinSl], Or.inr rfl⟩
  · rw [← hS0]
    have hSne : S ≠ [] := by simp [hS0]
    rw [joinSl_append S [last] hSne (by simp)]
    refine ⟨optRoot ++ joinSl S ++ ['/'], ?_, Or.inr ?_⟩
    · simp [joinSl]
    · rw [List.getLast?_concat]

theorem goBaseL_pre (pre last : List Char) (hlast : last ≠ [])
    (hlsl : '/' ∉ last) (hpre : pre = [] ∨ pre.getLast? = some '/') :
    goBaseL (pre ++ last) = last := by
  have hne : pre ++ last ≠ [] := by
    intro h
    exact hlast (List.append_eq_nil.1 h).2
  obtain ⟨c0, lrest, hrev⟩ : ∃ c0 lrest, last.reverse = c0 :: lrest := by
    rcases h : last.reverse with _ | ⟨a, b⟩
    · exact absurd (by simpa using congrArg List.reverse h) hlast
    · exact ⟨a, b, rfl⟩
  have hc0 : c0 ≠ '/' := by
    intro h
    exact hlsl (List.mem_reverse.1 (hrev ▸ (h ▸ List.mem_cons_self c0 lrest)))
  have hlrev : ∀ c ∈ last.reverse, ((c ≠ '/' : Bool) : Prop) := by
    intro c hc
    simp only [ne_eq, decide_not, Bool.not_eq_true', decide_eq_false_iff_not]
    intro hcc
    exact hlsl (hcc ▸ List.mem_reverse.1 hc)
  have hdrop : ((pre ++ last).reverse.dropWhile (· = '/')).reverse =
      pre ++ last := by
    rw [List.reverse_append, hrev, List.cons_append, List.dropWhile_cons,
        if_neg (by simpa using hc0), ← List.cons_append, ← hrev,
        ← List.reverse_append, List.reverse_reverse]
  have hpretake : List.takeWhile (· ≠ '/') pre.reverse = [] := by
    rcases hpre with h | h
    · simp [h]
    · have : pre.reverse.head? = some '/' := by
        rw [List.head?_reverse, h]
      rcases hh : pre.reverse with _ | ⟨a, b⟩
      · rfl
      · rw [hh] at this
        have ha : a = '/' := by simpa using this
        rw [List.takeWhile_cons, if_neg (by simp [ha])]
  have htake : ((pre ++ last).reverse.takeWhile (· ≠ '/')).reverse = last := by
    rw [List.reverse_append, takeWhile_all_append _ _ _ hlrev, hpretake]
    simp
  rw [goBaseL, if_neg hne]
  simp only [hdrop, htake]
  rw [if_neg hlast]

theorem extScan_stop (xs : List Char) (h : '/' ∉ xs) (acc : List Char)
    (ys : List Char) : extScan acc (xs ++ '/' :: ys) = extScan acc xs := by
  induction xs generalizing acc with
  | nil => simp [extScan]
  | cons c cs ih =>
    have hc : c ≠ '/' := fun hh => h (hh ▸ List.mem_cons_self c cs)
    have hcs : '/' ∉ cs := fun hh => h (List.mem_cons_of_mem c hh)
    rw [List.cons_append, extScan, extScan, if_neg hc, if_neg hc]
    by_cases hd : c = '.'
    · rw [if_pos hd, if_pos hd]
    · rw [if_neg hd, if_neg hd, ih hcs]

theorem extScan_pre (pre last : List Char) (hlsl : '/' ∉ last)
    (hpre : pre = [] ∨ pre.getLast? = some '/') :
    extScan [] (pre ++ last).reverse = extScan [] last.reverse := by
  rcases hpre with h | h
  · rw [h, List.nil_append]
  · obtain ⟨ptl, hptl⟩ : ∃ ptl, pre.reverse = '/' :: ptl := by
      have hh : pre.reverse.head? = some '/' := by
        rw [List.head?_reverse, h]
      rcases hp : pre.reverse with _ | ⟨a, b⟩
      · rw [hp] at hh
        cases hh
      · rw [hp] at hh
        have ha : a = '/' := by simpa using hh
        exact ⟨b, by rw [ha]⟩
    rw [List.reverse_append, hptl, extScan_stop _ (by
      intro hm
      exact hlsl (List.mem_reverse.1 hm))]

theorem strMk_data (s : String) : String.mk s.data = s := rfl

theorem data_mk (l : List Char) : (String.mk l).data = l := rfl

/-- `filepath.Join(dir, rel)` for a well-formed relative chain `rel`:
an optional root, inert prefix components, then the chain, unchanged. -/
theorem goJoin_parts (dir : String) (parts : List (List Char))
    (hp : parts ≠ []) (hwf : ∀ c ∈ parts, wfComp c) :
    ∃ optRoot S, (optRoot = [] ∨ optRoot = ['/']) ∧
      (∀ c ∈ S, c ≠ [] ∧ '/' ∉ c) ∧
      (goJoin dir (String.mk (joinSl parts))).data =
        optRoot ++ joinSl (S ++ parts) := by
  obtain ⟨p0, rest, rfl⟩ : ∃ p0 rest, parts = p0 :: rest := by
    cases parts with
    | nil => exact absurd rfl hp
    | cons a b => exact ⟨a, b, rfl⟩
  by_cases hd : dir = ""
  · have hjne : joinSl (p0 :: rest) ≠ [] :=
      joinSl_ne_nil_of_mem _ p0 (by simp) (hwf p0 (by simp)).1
    have hbne : String.mk (joinSl (p0 :: rest)) ≠ "" := by
      intro h
      exact hjne (congrArg String.data h)
    rw [hd, goJoin, if_pos rfl, if_neg hbne]
    refine ⟨[], [], Or.inl rfl, by simp, ?_⟩
    show goCleanL (joinSl (p0 :: rest)) = [] ++ joinSl ([] ++ p0 :: rest)
    simp only [List.nil_append]
    exact goCleanL_wfChain _ hp hwf
  · have hdata : dir.data ≠ [] := by
      intro h
      exact hd (by rw [← strMk_data dir, h])
    obtain ⟨optRoot, S, h1, h2, h3⟩ :=
      goCleanL_join_shape dir.data hdata (p0 :: rest) hp hwf
    refine ⟨optRoot, S, h1, h2, ?_⟩
    rw [goJoin, if_neg hd]
    show goCleanL (dir.data ++ '/' :: joinSl (p0 :: rest)) = _
    exact h3

/-- `filepath.Base` recovers the final component of a joined plan path. -/
theorem goBase_goJoin (dir : String) (L : List (List Char)) (last : List Char)
    (hwf : ∀ c ∈ L ++ [last], wfComp c) :
    goBase (goJoin dir (String.mk (joinSl (L ++ [last])))) = String.mk last := by
  obtain ⟨optRoot, S, h1, h2, h3⟩ := goJoin_parts dir (L ++ [last]) (by simp) hwf
  have hlast : wfComp last := hwf last (by simp)
  have h3' : (goJoin dir (String.mk (joinSl (L ++ [last])))).data =
      optRoot ++ joinSl ((S ++ L) ++ [last]) := by
    rw [h3, List.append_assoc]
  obtain ⟨pre, hpre1, hpre2⟩ := shape_decomp optRoot (S ++ L) last h1
  rw [goBase, h3', hpre1, goBaseL_pre pre last hlast.1 hlast.2.2.2 hpre2]

/-- `path.Ext` of a joined plan path only sees the final component. -/
theorem pathExt_goJoin (dir : String) (L : List (List Char)) (last : List Char)
    (hwf : ∀ c ∈ L ++ [last], wfComp c) :
    pathExt (goJoin dir (String.mk (joinSl (L ++ [last])))) =
      pathExt (String.mk last) := by
  obtain ⟨optRoot, S, h1, h2, h3⟩ := goJoin_parts dir (L ++ [last]) (by simp) hwf
  have hlast : wfComp last := hwf last (by simp)
  have h3' : (goJoin dir (String.mk (joinSl (L ++ [last])))).data =
      optRoot ++ joinSl ((S ++ L) ++ [last]) := by
    rw [h3, List.append_assoc]
  obtain ⟨pre, hpre1, hpre2⟩ := shape_decomp optRoot (S ++ L) last h1
  rw [pathExt, pathExt, h3', hpre1, extScan_pre pre last hlast.2.2.2 hpre2]

theorem goBase_goJoin_single (dir name : String) (h : wfComp name.data) :
    goBase (goJoin dir name) = name := by
  have hh := goBase_goJoin dir [] name.data (by
    intro c hc
    rcases List.mem_singleton.1 (by simpa using hc) with rfl
    exact h)
  exact hh

theorem pathExt_goJoin_single (dir name : String) (h : wfComp name.data) :
    pathExt (goJoin dir name) = pathExt name := by
  have hh := pathExt_goJoin dir [] name.data (by
    intro c hc
    rcases List.mem_singleton.1 (by simpa using hc) with rfl
    exact h)
  exact hh

/-! ### Well-formedness of the formatted path components -/

theorem wfComp_of_chars (c : List Char) (h1 : c ≠ [])
    (h2 : ∀ x ∈ c, x ≠ '/' ∧ x ≠ '.') : wfComp c := by
  refine ⟨h1, ?_, ?_, ?_⟩
  · intro h
    exact (h2 '.' (h ▸ List.mem_singleton.2 rfl)).2 rfl
  · intro h
    exact (h2 '.' (h ▸ List.mem_cons_self '.' ['.'])).2 rfl
  · intro h
    exact (h2 '/' h).1 rfl

theorem digChar_spec (d : Nat) : digChar d ≠ '/' ∧ digChar d ≠ '.' := by
  unfold digChar
  repeat' split
  all_goals decide

theorem natDigsCore_spec (P : Char → Prop) (hdig : ∀ d, P (digChar d)) :
    ∀ (fuel n : Nat) (acc : List Char), (∀ c ∈ acc, P c) →
      ∀ c ∈ natDigsCore fuel n acc, P c := by
  intro fuel
  induction fuel with
  | zero => intro n acc hacc c hc; exact hacc c hc
  | succ fuel ih =>
    intro n acc hacc c hc
    rw [natDigsCore] at hc
    split at hc
    · rcases List.mem_cons.1 hc with rfl | hc2
      · exact hdig n
      · exact hacc c hc2
    · refine ih (n / 10) _ ?_ c hc
      intro x hx
      rcases List.mem_cons.1 hx with rfl | hx2
      · exact hdig (n % 10)
      · exact hacc x hx2

theorem natDigsCore_ne_nil :
    ∀ (fuel n : Nat) (acc : List Char), (fuel ≠ 0 ∨ acc ≠ []) →
      natDigsCore fuel n acc ≠ [] := by
  intro fuel
  induction fuel with
  | zero =>
    intro n acc h
    rcases h with h | h
    · exact absurd rfl h
    · exact h
  | succ fuel ih =>
    intro n acc h
    rw [natDigsCore]
    split
    · simp
    · exact ih (n / 10) _ (Or.inr (by simp))

theorem natDigs_spec (n : Nat) :
    natDigs n ≠ [] ∧ ∀ c ∈ natDigs n, c ≠ '/' ∧ c ≠ '.' := by
  constructor
  · exact natDigsCore_ne_nil (n + 1) n [] (Or.inl (by simp))
  · exact natDigsCore_spec (fun c => c ≠ '/' ∧ c ≠ '.') digChar_spec
      (n + 1) n [] (by simp)

theorem intDec_wf (y : Int) : wfComp (intDec y) := by
  refine wfComp_of_chars _ ?_ ?_
  · unfold intDec
    split
    · simp
    · exact (natDigs_spec y.natAbs).1
  · intro x hx
    unfold intDec at hx
    split at hx
    · rcases List.mem_cons.1 hx with rfl | hx2
      · exact ⟨by decide, by decide⟩
      · exact (natDigs_spec y.natAbs).2 x hx2
    · exact (natDigs_spec y.natAbs).2 x hx

theorem fmt2_wf (m : Nat) : wfComp (fmt2 m).data := by
  refine wfComp_of_chars _ ?_ ?_
  · unfold fmt2
    split
    · simp [data_mk]
    · rw [data_mk]
      exact (natDigs_spec m).1
  · intro x hx
    unfold fmt2 at hx
    split at hx
    · rw [data_mk] at hx
      rcases List.mem_cons.1 hx with rfl | hx2
      · exact ⟨by decide, by decide⟩
      · exact (natDigs_spec m).2 x hx2
    · rw [data_mk] at hx
      exact (natDigs_spec m).2 x hx

theorem fmt4_wf (y : Int) : wfComp (fmt4 y).data := by
  refine wfComp_of_chars _ ?_ ?_
  · unfold fmt4
    rw [data_mk]
    split
    · simp
    · intro h
      exact (natDigs_spec y.natAbs).1 (List.append_eq_nil.1 h).2
  · intro x hx
    unfold fmt4 at hx
    rw [data_mk] at hx
    have hpad : ∀ z ∈ List.replicate (4 - (natDigs y.natAbs).length) '0' ++
        natDigs y.natAbs, z ≠ '/' ∧ z ≠ '.' := by
      intro z hz
      rcases List.mem_append.1 hz with hz2 | hz2
      · rcases List.eq_of_mem_replicate hz2 with rfl
        exact ⟨by decide, by decide⟩
      · exact (natDigs_spec y.natAbs).2 z hz2
    split at hx
    · rcases List.mem_cons.1 hx with rfl | hx2
      · exact ⟨by decide, by decide⟩
      · exact hpad x hx2
    · exact hpad x hx

theorem classify_mem_labels (ext : String) : classify ext ∈ specLabels := by
  unfold classify kindLookup
  rcases hfind : kindTable.find?
      (fun s => (goFields (cutAfter s)).contains (lowerAscii ext)) with _ | s
  · simp [specLabels]
  · have hs : s ∈ kindTable := List.mem_of_find?_eq_some hfind
    simp only [kindTable, List.mem_cons, List.not_mem_nil, or_false] at hs
    rcases hs with rfl | rfl | rfl | rfl | rfl | rfl | rfl | rfl
    · exact by decide
    · exact by decide
    · exact by decide
    · exact by decide
    · exact by decide
    · exact by decide
    · exact by decide
    · exact by decide

theorem specLabels_wf : ∀ l ∈ specLabels, wfComp l.data := by
  unfold wfComp
  decide

theorem getKind_wf (p : String) : wfComp (getKind p).data :=
  specLabels_wf _ (classify_mem_labels _)

/-! ### Shape of individual plans -/

theorem entryWf_data (e : DirEntry) (h : entryWf e) : wfComp e.name.data := by
  obtain ⟨h1, h2, h3, h4⟩ := h
  refine ⟨?_, ?_, ?_, h2⟩
  · intro hh
    exact h1 (by rw [← strMk_data e.name, hh])
  · intro hh
    exact h3 (by rw [← strMk_data e.name, hh])
  · intro hh
    exact h4 (by rw [← strMk_data e.name, hh])

theorem str_concat4_data (a b c d : String) :
    (a ++ "/" ++ b ++ "/" ++ c ++ "/" ++ d).data =
      joinSl [a.data, b.data, c.data, d.data] := by
  show _ = a.data ++ '/' :: (b.data ++ '/' :: (c.data ++ '/' :: d.data))
  simp [String.data_append]

theorem str_concat3_data (a b c : String) :
    (a ++ "/" ++ b ++ "/" ++ c).data = joinSl [a.data, b.data, c.data] := by
  show _ = a.data ++ '/' :: (b.data ++ '/' :: c.data)
  simp [String.data_append]

/-- A successful file plan: the source is the joined path, the destination
is the base directory joined with the well-formed four-component relative
path, and `Base` of the destination is the entry's own name. -/
theorem filePlan_shape (dateOf : String → Except String LocalDate)
    (cfg : AppEnv) (e : DirEntry) (hwf : entryWf e) (pr : MovePair)
    (hok : filePlan dateOf cfg (goJoin cfg.dir e.name) = .ok pr) :
    ∃ d, dateOf (goJoin cfg.dir e.name) = .ok d ∧
      pr = ⟨goJoin cfg.dir e.name,
        goJoin cfg.dir (String.mk (joinSl
          [intDec d.year, (fmt2 d.month).data,
           (getKind (goJoin cfg.dir e.name)).data, e.name.data]))⟩ ∧
      goBase pr.new = e.name := by
  have hbase : goBase (goJoin cfg.dir e.name) = e.name :=
    goBase_goJoin_single cfg.dir e.name (entryWf_data e hwf)
  rcases hd : dateOf (goJoin cfg.dir e.name) with eo | d
  · rw [filePlan, buildName, hd] at hok
    cases hok
  · rw [filePlan, buildName, hd] at hok
    have hstr : String.mk (intDec d.year) ++ "/" ++ fmt2 d.month ++ "/" ++
        getKind (goJoin cfg.dir e.name) ++ "/" ++
        goBase (goJoin cfg.dir e.name) =
        String.mk (joinSl ([intDec d.year, (fmt2 d.month).data,
          (getKind (goJoin cfg.dir e.name)).data] ++ [e.name.data])) := by
      apply String.ext
      rw [str_concat4_data, data_mk, hbase]
      rfl
    have hwfparts : ∀ c ∈ [intDec d.year, (fmt2 d.month).data,
        (getKind (goJoin cfg.dir e.name)).data] ++ [e.name.data], wfComp c := by
      intro c hc
      simp only [List.mem_append, List.mem_cons, List.mem_singleton,
        List.not_mem_nil, or_false] at hc
      rcases hc with (rfl | rfl | rfl) | rfl
      · exact intDec_wf d.year
      · exact fmt2_wf d.month
      · exact getKind_wf (goJoin cfg.dir e.name)
      · exact entryWf_data e hwf
    have hpr : pr = ⟨goJoin cfg.dir e.name,
        goJoin cfg.dir (String.mk (intDec d.year) ++ "/" ++ fmt2 d.month ++
          "/" ++ getKind (goJoin cfg.dir e.name) ++ "/" ++
          goBase (goJoin cfg.dir e.name))⟩ := by
      cases hok
      rfl
    refine ⟨d, rfl, ?_, ?_⟩
    · rw [hpr, hstr]
      rfl
    · rw [hpr]
      show goBase (goJoin cfg.dir (String.mk (intDec d.year) ++ "/" ++
        fmt2 d.month ++ "/" ++ getKind (goJoin cfg.dir e.name) ++ "/" ++
        goBase (goJoin cfg.dir e.name))) = e.name
      rw [hstr, goBase_goJoin cfg.dir _ e.name.data hwfparts, strMk_data]

/-- A successful directory plan, analogously, with a three-component
relative path. -/
theorem dirPlan_shape (dateOf : String → Except String LocalDate)
    (cfg : AppEnv) (e : DirEntry) (hwf : entryWf e) (pr : MovePair)
    (hok : dirPlan dateOf cfg (goJoin cfg.dir e.name) = .ok pr) :
    ∃ d, dateOf (goJoin cfg.dir e.name) = .ok d ∧
      pr = ⟨goJoin cfg.dir e.name,
        goJoin cfg.dir (String.mk (joinSl
          [(fmt4 d.year).data, (fmt2 d.month).data, e.name.data]))⟩ ∧
      goBase pr.new = e.name := by
  have hbase : goBase (goJoin cfg.dir e.name) = e.name :=
    goBase_goJoin_single cfg.dir e.name (entryWf_data e hwf)
  rcases hd : dateOf (goJoin cfg.dir e.name) with eo | d
  · rw [dirPlan, hd] at hok
    cases hok
  · rw [dirPlan, hd] at hok
    have hstr : fmt4 d.year ++ "/" ++ fmt2 d.month ++ "/" ++
        goBase (goJoin cfg.dir e.name) =
        String.mk (joinSl ([(fmt4 d.year).data, (fmt2 d.month).data] ++
          [e.name.data])) := by
      apply String.ext
      rw [str_concat3_data, hbase]
      rfl
    have hwfparts : ∀ c ∈ [(fmt4 d.year).data, (fmt2 d.month).data] ++
        [e.name.data], wfComp c := by
      intro c hc
      simp only [List.mem_append, List.mem_cons, List.mem_singleton,
        List.not_mem_nil, or_false] at hc
      rcases hc with (rfl | rfl) | rfl
      · exact fmt4_wf d.year
      · exact fmt2_wf d.month
      · exact entryWf_data e hwf
    have hpr : pr = ⟨goJoin cfg.dir e.name,
        goJoin cfg.dir (fmt4 d.year ++ "/" ++ fmt2 d.month ++ "/" ++
          goBase (goJoin cfg.dir e.name))⟩ := by
      cases hok
      rfl
    refine ⟨d, rfl, ?_, ?_⟩
    · rw [hpr, hstr]
      rfl
    · rw [hpr]
      show goBase (goJoin cfg.dir (fmt4 d.year ++ "/" ++ fmt2 d.month ++
        "/" ++ goBase (goJoin cfg.dir e.name))) = e.name
      rw [hstr, goBase_goJoin cfg.dir _ e.name.data hwfparts, strMk_data]

/-! ### Sequential planning (`mapM` over `Except`) -/

theorem exc_bind_error {α β : Type} (e : String) (f : α → Except String β) :
    (Except.error e >>= f) = Except.error e := rfl

theorem exc_bind_ok {α β : Type} (a : α) (f : α → Except String β) :
    (Except.ok a >>= f) = f a := rfl

theorem exc_pure {α : Type} (a : α) :
    (pure a : Except String α) = Except.ok a := rfl

theorem mapM_ok_eq (f : String → Except String MovePair) (l : List String)
    (ys : List MovePair) (h : l.mapM f = .ok ys) :
    ys = l.map (fun x => getOkPair (f x)) ∧ ∀ x ∈ l, ∃ v, f x = .ok v := by
  induction l generalizing ys with
  | nil =>
    rw [List.mapM_nil] at h
    cases h
    exact ⟨rfl, by simp⟩
  | cons x xs ih =>
    rw [List.mapM_cons] at h
    rcases hx : f x with e | v
    · rw [hx, exc_bind_error] at h
      cases h
    · rw [hx, exc_bind_ok] at h
      rcases hmm : xs.mapM f with e2 | ys2
      · rw [hmm, exc_bind_error] at h
        cases h
      · rw [hmm, exc_bind_ok, exc_pure] at h
        cases h
        obtain ⟨hmap, hall⟩ := ih ys2 hmm
        refine ⟨?_, ?_⟩
        · rw [List.map_cons, hx, ← hmap]
          rfl
        · intro y hy
          rcases List.mem_cons.1 hy with rfl | hy2
          · exact ⟨v, hx⟩
          · exact hall y hy2

theorem mapM_error_mem (f : String → Except String MovePair) (l : List String)
    (e : String) (h : l.mapM f = .error e) : ∃ x ∈ l, f x = .error e := by
  induction l with
  | nil =>
    rw [List.mapM_nil] at h
    cases h
  | cons x xs ih =>
    rw [List.mapM_cons] at h
    rcases hx : f x with e2 | v
    · rw [hx, exc_bind_error] at h
      cases h
      exact ⟨x, by simp, hx⟩
    · rw [hx, exc_bind_ok] at h
      rcases hmm : xs.mapM f with e2 | ys2
      · rw [hmm, exc_bind_error] at h
        cases h
        obtain ⟨y, hy, hfy⟩ := ih hmm
        exact ⟨y, List.mem_cons_of_mem x hy, hfy⟩
      · rw [hmm, exc_bind_ok, exc_pure] at h
        cases h

theorem mapM_error_of_mem (f : String → Except String MovePair)
    (l : List String) (x : String) (hx : x ∈ l) (e : String)
    (hfx : f x = .error e) : ∃ e2, l.mapM f = .error e2 ∧ ∃ y ∈ l, f y = .error e2 := by
  rcases hmm : l.mapM f with e2 | ys
  · exact ⟨e2, rfl, mapM_error_mem f l e2 hmm⟩
  · obtain ⟨_, hall⟩ := mapM_ok_eq f l ys hmm
    obtain ⟨v, hv⟩ := hall x hx
    rw [hfx] at hv
    cases hv

/-! ### Structure of the built batch -/

theorem buildPairs_eq (dateOf : String → Except String LocalDate)
    (cfg : AppEnv) (entries : List DirEntry) (fps dps : List MovePair)
    (hf : (filePaths cfg entries).mapM (filePlan dateOf cfg) = .ok fps)
    (hd : (if cfg.excludeDirs then pure [] else
      (dirPaths cfg entries).mapM (dirPlan dateOf cfg)) = Except.ok dps) :
    buildPairs dateOf cfg entries = .ok (sortByDest (fps ++ dps)) := by
  unfold buildPairs
  rw [hf, hd]

theorem buildPairs_ok (dateOf : String → Except String LocalDate)
    (cfg : AppEnv) (entries : List DirEntry) (pairs : List MovePair)
    (h : buildPairs dateOf cfg entries = .ok pairs) :
    ∃ fps dps, (filePaths cfg entries).mapM (filePlan dateOf cfg) = .ok fps ∧
      (if cfg.excludeDirs then pure [] else
        (dirPaths cfg entries).mapM (dirPlan dateOf cfg)) = Except.ok dps ∧
      pairs = sortByDest (fps ++ dps) := by
  unfold buildPairs at h
  rcases hf : (filePaths cfg entries).mapM (filePlan dateOf cfg) with e | fps
  · rw [hf] at h
    cases h
  · rw [hf] at h
    rcases hd : (if cfg.excludeDirs then pure [] else
        (dirPaths cfg entries).mapM (dirPlan dateOf cfg)) with e | dps
    · rw [hd] at h
      cases h
    · rw [hd] at h
      cases h
      exact ⟨fps, dps, rfl, rfl, rfl⟩

theorem fps_eq_map (dateOf : String → Except String LocalDate) (cfg : AppEnv)
    (entries : List DirEntry) (fps : List MovePair)
    (hf : (filePaths cfg entries).mapM (filePlan dateOf cfg) = .ok fps) :
    fps = (entries.filter isFileCand).map
      (fun e => getOkPair (filePlan dateOf cfg (goJoin cfg.dir e.name))) := by
  obtain ⟨hmap, _⟩ := mapM_ok_eq _ _ _ hf
  rw [hmap, filePaths, List.map_map]
  rfl

theorem dps_eq_map (dateOf : String → Except String LocalDate) (cfg : AppEnv)
    (entries : List DirEntry) (dps : List MovePair)
    (hd : (dirPaths cfg entries).mapM (dirPlan dateOf cfg) = .ok dps) :
    dps = (entries.filter isDirCand).map
      (fun e => getOkPair (dirPlan dateOf cfg (goJoin cfg.dir e.name))) := by
  obtain ⟨hmap, _⟩ := mapM_ok_eq _ _ _ hd
  rw [hmap, dirPaths, List.map_map]
  rfl

theorem fps_plan_ok (dateOf : String → Except String LocalDate) (cfg : AppEnv)
    (entries : List DirEntry) (fps : List MovePair)
    (hf : (filePaths cfg entries).mapM (filePlan dateOf cfg) = .ok fps)
    (e : DirEntry) (he : e ∈ entries.filter isFileCand) :
    ∃ v, filePlan dateOf cfg (goJoin cfg.dir e.name) = .ok v := by
  obtain ⟨_, hall⟩ := mapM_ok_eq _ _ _ hf
  exact hall _ (List.mem_map_of_mem (fun e => goJoin cfg.dir e.name) he)

theorem dps_plan_ok (dateOf : String → Except String LocalDate) (cfg : AppEnv)
    (entries : List DirEntry) (dps : List MovePair)
    (hd : (dirPaths cfg entries).mapM (dirPlan dateOf cfg) = .ok dps)
    (e : DirEntry) (he : e ∈ entries.filter isDirCand) :
    ∃ v, dirPlan dateOf cfg (goJoin cfg.dir e.name) = .ok v := by
  obtain ⟨_, hall⟩ := mapM_ok_eq _ _ _ hd
  exact hall _ (List.mem_map_of_mem (fun e => goJoin cfg.dir e.name) he)

theorem fps_base_names (dateOf : String → Except String LocalDate)
    (cfg : AppEnv) (entries : List DirEntry) (fps : List MovePair)
    (hwfE : ∀ e ∈ entries, entryWf e)
    (hf : (filePaths cfg entries).mapM (filePlan dateOf cfg) = .ok fps) :
    fps.map (fun pr => goBase pr.new) =
      (entries.filter isFileCand).map DirEntry.name := by
  rw [fps_eq_map dateOf cfg entries fps hf, List.map_map]
  apply List.map_congr_left
  intro e he
  obtain ⟨v, hv⟩ := fps_plan_ok dateOf cfg entries fps hf e he
  obtain ⟨d, _, _, hbase⟩ := filePlan_shape dateOf cfg e
    (hwfE e (List.mem_of_mem_filter he)) v hv
  show goBase (getOkPair (filePlan dateOf cfg (goJoin cfg.dir e.name))).new =
    e.name
  rw [hv]
  exact hbase

theorem dps_base_names (dateOf : String → Except String LocalDate)
    (cfg : AppEnv) (entries : List DirEntry) (dps : List MovePair)
    (hwfE : ∀ e ∈ entries, entryWf e)
    (hd : (dirPaths cfg entries).mapM (dirPlan dateOf cfg) = .ok dps) :
    dps.map (fun pr => goBase pr.new) =
      (entries.filter isDirCand).map DirEntry.name := by
  rw [dps_eq_map dateOf cfg entries dps hd, List.map_map]
  apply List.map_congr_left
  intro e he
  obtain ⟨v, hv⟩ := dps_plan_ok dateOf cfg entries dps hd e he
  obtain ⟨d, _, _, hbase⟩ := dirPlan_shape dateOf cfg e
    (hwfE e (List.mem_of_mem_filter he)) v hv
  show goBase (getOkPair (dirPlan dateOf cfg (goJoin cfg.dir e.name))).new =
    e.name
  rw [hv]
  exact hbase

/-! ### The destination order is a decidable linear order -/

theorem char_eq_of_toNat_eq (a b : Char) (h : a.toNat = b.toNat) : a = b := by
  have hv : a.val = b.val := by
    apply UInt32.ext
    exact h
  exact Char.ext hv

theorem strLtL_asym (x : List Char) : ∀ y, strLtL x y = true →
    strLtL y x = false := by
  induction x with
  | nil =>
    intro y h
    cases y with
    | nil => cases h
    | cons b bs => rfl
  | cons a as ih =>
    intro y h
    cases y with
    | nil => cases h
    | cons b bs =>
      rw [strLtL] at h ⊢
      by_cases hab : a = b
      · rw [if_pos hab] at h
        rw [if_pos hab.symm]
        exact ih bs h
      · rw [if_neg hab] at h
        rw [if_neg (fun hh => hab hh.symm)]
        simp only [decide_eq_true_eq] at h
        simp only [decide_eq_false_iff_not]
        omega

theorem strLtL_trichotomy (x : List Char) : ∀ y,
    strLtL x y = true ∨ x = y ∨ strLtL y x = true := by
  induction x with
  | nil =>
    intro y
    cases y with
    | nil => exact Or.inr (Or.inl rfl)
    | cons b bs => exact Or.inl rfl
  | cons a as ih =>
    intro y
    cases y with
    | nil => exact Or.inr (Or.inr rfl)
    | cons b bs =>
      by_cases hab : a = b
      · rcases ih bs with h | h | h
        · left
          rw [strLtL, if_pos hab]
          exact h
        · right
          left
          rw [hab, h]
        · right
          right
          rw [strLtL, if_pos hab.symm]
          exact h
      · rcases Nat.lt_trichotomy a.toNat b.toNat with h | h | h
        · left
          rw [strLtL, if_neg hab]
          simpa using h
        · exact absurd (char_eq_of_toNat_eq a b h) hab
        · right
          right
          rw [strLtL, if_neg (fun hh => hab hh.symm)]
          simpa using h

theorem strLtL_trans (x : List Char) : ∀ y z, strLtL x y = true →
    strLtL y z = true → strLtL x z = true := by
  induction x with
  | nil =>
    intro y z h1 h2
    cases z with
    | nil =>
      cases y with
      | nil => cases h2
      | cons b bs => cases h2
    | cons c cs => rfl
  | cons a as ih =>
    intro y z h1 h2
    cases y with
    | nil => cases h1
    | cons b bs =>
      cases z with
      | nil => cases h2
      | cons c cs =>
        rw [strLtL] at h1 h2 ⊢
        by_cases hab : a = b <;> by_cases hbc : b = c
        · rw [if_pos hab] at h1
          rw [if_pos hbc] at h2
          rw [if_pos (hab.trans hbc)]
          exact ih bs cs h1 h2
        · rw [if_pos hab] at h1
          rw [if_neg hbc] at h2
          rw [if_neg (fun hh => hbc (hab.symm.trans hh)), hab]
          exact h2
        · rw [if_neg hab] at h1
          rw [if_neg (fun hh => hab (hh.trans hbc.symm)), ← hbc]
          exact h1
        · rw [if_neg hab] at h1
          rw [if_neg hbc] at h2
          simp only [decide_eq_true_eq] at h1 h2
          have hac : a.toNat < c.toNat := Nat.lt_trans h1 h2
          have hne : a ≠ c := by
            intro hh
            rw [hh] at hac
            omega
          rw [if_neg hne]
          simpa using hac

theorem destLe_total (a b : MovePair) : destLe a b ∨ destLe b a := by
  rcases h : strLtL b.new.data a.new.data with _ | _
  · exact Or.inl h
  · exact Or.inr (strLtL_asym _ _ h)

theorem destLe_trans (a b c : MovePair) (h1 : destLe a b) (h2 : destLe b c) :
    destLe a c := by
  rcases h : strLtL c.new.data a.new.data with _ | _
  · exact h
  · rcases strLtL_trichotomy a.new.data b.new.data with hh | hh | hh
    · have := strLtL_trans _ _ _ h hh
      rw [destLe, this] at h2
      cases h2
    · rw [destLe, ← hh, h] at h2
      cases h2
    · rw [destLe, hh] at h1
      cases h1

theorem destLt_of_le_of_ne (a b : MovePair) (h1 : destLe a b)
    (hne : a.new ≠ b.new) : destLt a b := by
  rcases strLtL_trichotomy a.new.data b.new.data with hh | hh | hh
  · exact hh
  · exact absurd (String.ext hh) hne
  · rw [destLe, hh] at h1
    cases h1

theorem destLt_asymm (a b : MovePair) (h1 : destLt a b) (h2 : destLt b a) :
    False := by
  have hf := strLtL_asym _ _ h1
  rw [h2] at hf
  cases hf

theorem pairwise_ne_of_base_names (fps dps : List MovePair)
    (entries : List DirEntry) (hnd : (entries.map DirEntry.name).Nodup)
    (hfn : fps.map (fun pr => goBase pr.new) =
      (entries.filter isFileCand).map DirEntry.name)
    (hdn : dps.map (fun pr => goBase pr.new) =
      (entries.filter isDirCand).map DirEntry.name) :
    (fps ++ dps).Pairwise (fun a b => a.new ≠ b.new) := by
  have hmapnd : ((fps ++ dps).map (fun pr => goBase pr.new)).Nodup := by
    rw [List.map_append, hfn, hdn, List.nodup_append]
    refine ⟨?_, ?_, ?_⟩
    · exact List.Nodup.sublist
        (List.Sublist.map _ (List.filter_sublist entries)) hnd
    · exact List.Nodup.sublist
        (List.Sublist.map _ (List.filter_sublist entries)) hnd
    · intro a haf had
      obtain ⟨e1, he1, rfl⟩ := List.mem_map.1 haf
      obtain ⟨e2, he2, hname⟩ := List.mem_map.1 had
      have h1 := List.of_mem_filter he1
      have h2 := List.of_mem_filter he2
      have he12 : e1 = e2 :=
        List.inj_on_of_nodup_map hnd (List.mem_of_mem_filter he1)
          (List.mem_of_mem_filter he2) hname.symm
      rw [isFileCand, Bool.and_eq_true, Bool.not_eq_true'] at h1
      rw [isDirCand, Bool.and_eq_true, Bool.and_eq_true] at h2
      rw [he12] at h1
      rw [h2.1.1] at h1
      cases h1.1
  have hpw := List.pairwise_map.mp hmapnd
  exact hpw.imp (fun h hnew => h (congrArg goBase hnew))

theorem pairwise_ne_fps (fps : List MovePair) (entries : List DirEntry)
    (hnd : (entries.map DirEntry.name).Nodup)
    (hfn : fps.map (fun pr => goBase pr.new) =
      (entries.filter isFileCand).map DirEntry.name) :
    fps.Pairwise (fun a b => a.new ≠ b.new) := by
  have hmapnd : (fps.map (fun pr => goBase pr.new)).Nodup := by
    rw [hfn]
    exact List.Nodup.sublist
      (List.Sublist.map _ (List.filter_sublist entries)) hnd
  exact (List.pairwise_map.mp hmapnd).imp
    (fun h hnew => h (congrArg goBase hnew))

theorem sortByDest_sorted (ps : List MovePair) :
    (sortByDest ps).Sorted destLe := by
  haveI : IsTotal MovePair destLe := ⟨destLe_total⟩
  haveI : IsTrans MovePair destLe := ⟨destLe_trans⟩
  exact List.sorted_insertionSort destLe ps

theorem sortByDest_perm (ps : List MovePair) : (sortByDest ps).Perm ps :=
  List.perm_insertionSort destLe ps

theorem dest_ne_symm : ∀ {a b : MovePair},
    (fun a b : MovePair => a.new ≠ b.new) a b →
    (fun a b : MovePair => a.new ≠ b.new) b a :=
  fun h => h.symm

theorem sortByDest_sorted_strict (ps : List MovePair)
    (hps : ps.Pairwise (fun a b => a.new ≠ b.new)) :
    (sortByDest ps).Sorted destLt := by
  have hs : (sortByDest ps).Sorted destLe := sortByDest_sorted ps
  have hne : (sortByDest ps).Pairwise (fun a b => a.new ≠ b.new) :=
    (List.Perm.pairwise_iff dest_ne_symm (sortByDest_perm ps)).mpr hps
  exact (hs.and hne).imp (fun h => destLt_of_le_of_ne _ _ h.1 h.2)

theorem listingWf_perm (entries entries2 : List DirEntry)
    (h : entries2.Perm entries) (hwf : listingWf entries) :
    listingWf entries2 :=
  ⟨fun e he => hwf.1 e (h.subset he),
   ((h.map DirEntry.name).nodup_iff).mpr hwf.2⟩

/-- C2: the batch is the concatenation of file plans and directory plans
sorted by destination under (byte-wise) lexicographic comparison; all
destinations in a well-formed listing are pairwise distinct, so no ties
exist (stability is vacuous), the sorted batch is unique, and the result
is independent of the enumeration order of the listing. -/
theorem c2_batch_sorted_concat_deterministic
    (dateOf : String → Except String LocalDate) (cfg : AppEnv)
    (entries : List DirEntry) (fps dps pairs : List MovePair)
    (hwf : listingWf entries)
    (hf : (filePaths cfg entries).mapM (filePlan dateOf cfg) = .ok fps)
    (hd : (if cfg.excludeDirs then pure [] else
      (dirPaths cfg entries).mapM (dirPlan dateOf cfg)) = Except.ok dps)
    (hb : buildPairs dateOf cfg entries = .ok pairs) :
    pairs = sortByDest (fps ++ dps) ∧
    pairs.Perm (fps ++ dps) ∧
    pairs.Sorted destLe ∧
    pairs.Pairwise (fun a b => a.new ≠ b.new) ∧
    (∀ entries2 pairs2, entries2.Perm entries →
      buildPairs dateOf cfg entries2 = .ok pairs2 → pairs2 = pairs) := by
  have heq : pairs = sortByDest (fps ++ dps) := by
    have h2 := buildPairs_eq dateOf cfg entries fps dps hf hd
    rw [hb] at h2
    exact (Except.ok.inj h2)
  have hdn : dps.map (fun pr => goBase pr.new) =
      (entries.filter isDirCand).map DirEntry.name ∨ dps = [] := by
    by_cases hex : cfg.excludeDirs
    · rw [if_pos hex] at hd
      right
      have : ([] : List MovePair) = dps := Except.ok.inj hd
      exact this.symm
    · rw [if_neg hex] at hd
      exact Or.inl (dps_base_names dateOf cfg entries dps hwf.1 hd)
  have hfn := fps_base_names dateOf cfg entries fps hwf.1 hf
  have hpw : (fps ++ dps).Pairwise (fun a b => a.new ≠ b.new) := by
    rcases hdn with hdn | rfl
    · exact pairwise_ne_of_base_names fps dps entries hwf.2 hfn hdn
    · rw [List.append_nil]
      exact pairwise_ne_fps fps entries hwf.2 hfn
  refine ⟨heq, heq ▸ sortByDest_perm _, heq ▸ sortByDest_sorted _,
    (List.Perm.pairwise_iff dest_ne_symm (heq ▸ sortByDest_perm _)).mpr hpw,
    ?_⟩
  intro entries2 pairs2 hperm hb2
  obtain ⟨fps2, dps2, hf2, hd2, heq2⟩ := buildPairs_ok dateOf cfg entries2
    pairs2 hb2
  have hwf2 : listingWf entries2 := listingWf_perm entries entries2 hperm hwf
  have hfperm : fps2.Perm fps := by
    rw [fps_eq_map dateOf cfg entries fps hf,
        fps_eq_map dateOf cfg entries2 fps2 hf2]
    exact (hperm.filter isFileCand).map _
  have hdperm : dps2.Perm dps := by
    by_cases hex : cfg.excludeDirs
    · rw [if_pos hex] at hd hd2
      have h1 : ([] : List MovePair) = dps := Except.ok.inj hd
      have h2 : ([] : List MovePair) = dps2 := Except.ok.inj hd2
      rw [← h1, ← h2]
    · rw [if_neg hex] at hd hd2
      rw [dps_eq_map dateOf cfg entries dps hd,
          dps_eq_map dateOf cfg entries2 dps2 hd2]
      exact (hperm.filter isDirCand).map _
  have hfn2 := fps_base_names dateOf cfg entries2 fps2 hwf2.1 hf2
  have hdn2 : dps2.map (fun pr => goBase pr.new) =
      (entries2.filter isDirCand).map DirEntry.name ∨ dps2 = [] := by
    by_cases hex : cfg.excludeDirs
    · rw [if_pos hex] at hd2
      exact Or.inr (Except.ok.inj hd2).symm
    · rw [if_neg hex] at hd2
      exact Or.inl (dps_base_names dateOf cfg entries2 dps2 hwf2.1 hd2)
  have hpw2 : (fps2 ++ dps2).Pairwise (fun a b => a.new ≠ b.new) := by
    rcases hdn2 with hdn2 | rfl
    · exact pairwise_ne_of_base_names fps2 dps2 entries2 hwf2.2 hfn2 hdn2
    · rw [List.append_nil]
      exact pairwise_ne_fps fps2 entries2 hwf2.2 hfn2
  have hpairsperm : pairs2.Perm pairs := by
    rw [heq, heq2]
    exact ((sortByDest_perm _).trans ((hfperm.append hdperm).trans
      (sortByDest_perm _).symm))
  haveI : IsAntisymm MovePair destLt :=
    ⟨fun a b h1 h2 => (destLt_asymm a b h1 h2).elim⟩
  exact List.eq_of_perm_of_sorted hpairsperm
    (heq2 ▸ sortByDest_sorted_strict _ hpw2)
    (heq ▸ sortByDest_sorted_strict _ hpw)

/-! ### The claims -/

/-- C1: for every file entry, the planned destination (the `newname` built
by `buildName`) is the relative path `<year>/<month, two zero-padded
digits>/<category>/<name>`, where year and month come from the entry's
added-date (as reported in local time by the date oracle) and the source
name is used verbatim as the final path component. -/
theorem c1_plan_file_dest (dateOf : String → Except String LocalDate)
    (dir name : String) (hwf : wfComp name.data) (d : LocalDate)
    (hd : dateOf (goJoin dir name) = .ok d) :
    buildName dateOf (goJoin dir name) =
      .ok (String.mk (intDec d.year) ++ "/" ++ fmt2 d.month ++ "/" ++
        classify (dropDot (pathExt name)) ++ "/" ++ name) := by
  unfold buildName
  rw [hd, goBase_goJoin_single dir name hwf]
  simp only [getKind, pathExt_goJoin_single dir name hwf]

/-- Witness for C1 at the specification's own example: a file named
`report.pdf` with added-date 2023-03 and category `doc` is planned to
`2023/03/doc/report.pdf`. -/
theorem c1_plan_file_dest_witness :
    wfComp ("report.pdf" : String).data ∧
    buildName (fun _ => Except.ok ⟨2023, 3⟩) (goJoin "." "report.pdf") =
      .ok "2023/03/doc/report.pdf" := by
  refine ⟨by decide, ?_⟩
  rw [c1_plan_file_dest (fun _ => Except.ok ⟨2023, 3⟩) "." "report.pdf"
    (by decide) ⟨2023, 3⟩ rfl]
  rfl

/-- C3: the classifier is total — every extension string is mapped to
exactly one of the nine labels — matches the §4.1 reference table
case-insensitively (any case variant of a table extension gets that row's
category, e.g. `JPG`/`jpg` ↦ `image`), and maps anything else, including
the empty extension, to `misc`.  The lower-casing is modelled on ASCII
(`lowerAscii`), where it agrees with Go's Unicode `strings.ToLower`; the
"unknown ↦ misc" part is therefore stated for ASCII extension strings. -/
theorem c3_classifier_total_table :
    (∀ ext, classify ext ∈ specLabels) ∧
    (classify "JPG" = "image" ∧ classify "jpg" = "image" ∧ classify "" = "misc") ∧
    (∀ p ∈ specTable41, classify p.1 = p.2) ∧
    (∀ ext p, p ∈ specTable41 → lowerAscii ext = p.1 → classify ext = p.2) ∧
    (∀ ext, asciiOnly ext → lowerAscii ext ∉ specExts → classify ext = "misc") := by
  have htable : ∀ p ∈ specTable41, classify p.1 = p.2 := by decide
  have hlower : ∀ p ∈ specTable41, lowerAscii p.1 = p.1 := by decide
  refine ⟨classify_mem_labels, ⟨by decide, by decide, by decide⟩, htable,
    ?_, ?_⟩
  · intro ext p hp hext
    have h1 : classify ext = classify p.1 := by
      rw [classify, classify, hext, hlower p hp]
    rw [h1]
    exact htable p hp
  · intro ext _ hnot
    have hrows : ∀ r ∈ kindTable,
        ¬((goFields (cutAfter r)).contains (lowerAscii ext) = true) := by
      intro r hr hcon
      have hmem : lowerAscii ext ∈ goFields (cutAfter r) := by
        simpa using hcon
      have hsub : ∀ z ∈ goFields (cutAfter r), z ∈ specExts := by
        simp only [kindTable, List.mem_cons, List.not_mem_nil, or_false] at hr
        rcases hr with rfl | rfl | rfl | rfl | rfl | rfl | rfl | rfl
        · decide
        · decide
        · decide
        · decide
        · decide
        · decide
        · decide
        · decide
      exact hnot (hsub _ hmem)
    rw [classify, kindLookup, List.find?_eq_none.2 hrows]

/-- Witness for C3: instantiating the quantified parts at concrete
extensions. -/
theorem c3_classifier_total_table_witness :
    classify "tbz2" ∈ specLabels ∧ classify "JPG" = "image" ∧
    (("jpeg", "image") ∈ specTable41 ∧ classify "jpeg" = "image") ∧
    (lowerAscii "TbZ2" = "tbz2" ∧ classify "TbZ2" = "archive") ∧
    (asciiOnly "xyz" ∧ lowerAscii "xyz" ∉ specExts ∧ classify "xyz" = "misc") := by
  obtain ⟨h1, h2, h3, h4, h5⟩ := c3_classifier_total_table
  refine ⟨h1 "tbz2", h2.1, ⟨by decide, h3 ("jpeg", "image") (by decide)⟩,
    ⟨by decide, h4 "TbZ2" ("tbz2", "archive") (by decide) (by decide)⟩,
    ⟨by decide, by decide, h5 "xyz" (by decide) (by decide)⟩⟩

/-- Witness for C2 at §8's ordering example: files `b.txt` (added 2020-01)
and `a.txt` (added 2019-12), listed with `b.txt` first, produce the batch
sorted with the 2019 destination before the 2020 one. -/
theorem c2_batch_sorted_concat_deterministic_witness :
    listingWf [⟨"b.txt", false⟩, ⟨"a.txt", false⟩] ∧
    ([⟨"a.txt", "2019/12/doc/a.txt"⟩, ⟨"b.txt", "2020/01/doc/b.txt"⟩] :
        List MovePair) =
      sortByDest ([⟨"b.txt", "2020/01/doc/b.txt"⟩,
        ⟨"a.txt", "2019/12/doc/a.txt"⟩] ++ []) ∧
    ([⟨"a.txt", "2019/12/doc/a.txt"⟩, ⟨"b.txt", "2020/01/doc/b.txt"⟩] :
        List MovePair).Sorted destLe ∧
    ([⟨"a.txt", "2019/12/doc/a.txt"⟩, ⟨"b.txt", "2020/01/doc/b.txt"⟩] :
        List MovePair).Pairwise (fun a b => a.new ≠ b.new) ∧
    (∀ entries2 pairs2, entries2.Perm [⟨"b.txt", false⟩, ⟨"a.txt", false⟩] →
      buildPairs
        (fun p => if p = "b.txt" then Except.ok ⟨2020, 1⟩
                  else Except.ok ⟨2019, 12⟩)
        ⟨".", false, false⟩ entries2 = .ok pairs2 →
      pairs2 = [⟨"a.txt", "2019/12/doc/a.txt"⟩,
                ⟨"b.txt", "2020/01/doc/b.txt"⟩]) := by
  have h := c2_batch_sorted_concat_deterministic
    (fun p => if p = "b.txt" then Except.ok ⟨2020, 1⟩ else Except.ok ⟨2019, 12⟩)
    ⟨".", false, false⟩ [⟨"b.txt", false⟩, ⟨"a.txt", false⟩]
    [⟨"b.txt", "2020/01/doc/b.txt"⟩, ⟨"a.txt", "2019/12/doc/a.txt"⟩] []
    [⟨"a.txt", "2019/12/doc/a.txt"⟩, ⟨"b.txt", "2020/01/doc/b.txt"⟩]
    (by decide) (by rfl) (by rfl) (by rfl)
  exact ⟨by decide, h.1, h.2.2.1, h.2.2.2.1, h.2.2.2.2⟩

/-- Every pair of a built batch originates from a candidate entry, its
source is the base directory joined with that entry's name, and its
destination is the base directory joined with a well-formed relative
chain; conversely every candidate entry contributes a pair. -/
theorem batch_source (dateOf : String → Except String LocalDate)
    (cfg : AppEnv) (entries : List DirEntry) (pairs : List MovePair)
    (hwfE : ∀ e ∈ entries, entryWf e)
    (hb : buildPairs dateOf cfg entries = .ok pairs) :
    (∀ pr ∈ pairs, ∃ e ∈ entries,
      (isFileCand e = true ∨ (cfg.excludeDirs = false ∧ isDirCand e = true)) ∧
      pr.old = goJoin cfg.dir e.name ∧ goBase pr.old = e.name ∧
      ∃ parts, parts ≠ [] ∧ (∀ c ∈ parts, wfComp c) ∧
        pr.new = goJoin cfg.dir (String.mk (joinSl parts))) ∧
    (∀ e ∈ entries,
      (isFileCand e = true ∨ (cfg.excludeDirs = false ∧ isDirCand e = true)) →
      ∃ pr ∈ pairs, pr.old = goJoin cfg.dir e.name) := by
  obtain ⟨fps, dps, hf, hd, heq⟩ := buildPairs_ok dateOf cfg entries pairs hb
  have hperm : pairs.Perm (fps ++ dps) := heq ▸ sortByDest_perm _
  have hfile : ∀ e ∈ entries.filter isFileCand,
      ∃ pr, pr = getOkPair (filePlan dateOf cfg (goJoin cfg.dir e.name)) ∧
        pr.old = goJoin cfg.dir e.name ∧ goBase pr.old = e.name ∧
        ∃ parts, parts ≠ [] ∧ (∀ c ∈ parts, wfComp c) ∧
          pr.new = goJoin cfg.dir (String.mk (joinSl parts)) := by
    intro e he
    obtain ⟨v, hv⟩ := fps_plan_ok dateOf cfg entries fps hf e he
    have hwfe := hwfE e (List.mem_of_mem_filter he)
    obtain ⟨d, _, hpr, _⟩ := filePlan_shape dateOf cfg e hwfe v hv
    refine ⟨v, by rw [hv]; rfl, ?_, ?_, ?_⟩
    · rw [hpr]
    · rw [hpr]
      exact goBase_goJoin_single cfg.dir e.name (entryWf_data e hwfe)
    · refine ⟨[intDec d.year, (fmt2 d.month).data,
        (getKind (goJoin cfg.dir e.name)).data, e.name.data], by simp, ?_, ?_⟩
      · intro c hc
        simp only [List.mem_cons, List.not_mem_nil, or_false] at hc
        rcases hc with rfl | rfl | rfl | rfl
        · exact intDec_wf d.year
        · exact fmt2_wf d.month
        · exact getKind_wf _
        · exact entryWf_data e hwfe
      · rw [hpr]
  have hdir : ∀ e ∈ entries.filter isDirCand,
      (dirPaths cfg entries).mapM (dirPlan dateOf cfg) = .ok dps →
      ∃ pr, pr = getOkPair (dirPlan dateOf cfg (goJoin cfg.dir e.name)) ∧
        pr.old = goJoin cfg.dir e.name ∧ goBase pr.old = e.name ∧
        ∃ parts, parts ≠ [] ∧ (∀ c ∈ parts, wfComp c) ∧
          pr.new = goJoin cfg.dir (String.mk (joinSl parts)) := by
    intro e he hdd
    obtain ⟨v, hv⟩ := dps_plan_ok dateOf cfg entries dps hdd e he
    have hwfe := hwfE e (List.mem_of_mem_filter he)
    obtain ⟨d, _, hpr, _⟩ := dirPlan_shape dateOf cfg e hwfe v hv
    refine ⟨v, by rw [hv]; rfl, ?_, ?_, ?_⟩
    · rw [hpr]
    · rw [hpr]
      exact goBase_goJoin_single cfg.dir e.name (entryWf_data e hwfe)
    · refine ⟨[(fmt4 d.year).data, (fmt2 d.month).data, e.name.data],
        by simp, ?_, ?_⟩
      · intro c hc
        simp only [List.mem_cons, List.not_mem_nil, or_false] at hc
        rcases hc with rfl | rfl | rfl
        · exact fmt4_wf d.year
        · exact fmt2_wf d.month
        · exact entryWf_data e hwfe
      · rw [hpr]
  constructor
  · intro pr hpr
    have hpr2 : pr ∈ fps ++ dps := hperm.subset hpr
    rcases List.mem_append.1 hpr2 with hmem | hmem
    · rw [fps_eq_map dateOf cfg entries fps hf] at hmem
      obtain ⟨e, he, hpe⟩ := List.mem_map.1 hmem
      obtain ⟨v, hveq, h1, h2, h3⟩ := hfile e he
      have hvp : v = pr := hveq.trans hpe
      subst hvp
      exact ⟨e, List.mem_of_mem_filter he,
        Or.inl (List.of_mem_filter he), h1, h2, h3⟩
    · by_cases hex : cfg.excludeDirs
      · rw [if_pos hex] at hd
        have : ([] : List MovePair) = dps := Except.ok.inj hd
        rw [← this] at hmem
        cases hmem
      · rw [if_neg hex] at hd
        rw [dps_eq_map dateOf cfg entries dps hd] at hmem
        obtain ⟨e, he, hpe⟩ := List.mem_map.1 hmem
        obtain ⟨v, hveq, h1, h2, h3⟩ := hdir e he hd
        have hvp : v = pr := hveq.trans hpe
        subst hvp
        exact ⟨e, List.mem_of_mem_filter he,
          Or.inr ⟨by simpa using hex, List.of_mem_filter he⟩, h1, h2, h3⟩
  · intro e he hcand
    rcases hcand with hc | ⟨hex, hc⟩
    · have hef : e ∈ entries.filter isFileCand := List.mem_filter.2 ⟨he, hc⟩
      obtain ⟨v, hveq, h1, _, _⟩ := hfile e hef
      refine ⟨v, ?_, h1⟩
      apply hperm.mem_iff.2
      apply List.mem_append_left
      rw [fps_eq_map dateOf cfg entries fps hf]
      rw [hveq]
      exact List.mem_map_of_mem _ hef
    · have hed : e ∈ entries.filter isDirCand := List.mem_filter.2 ⟨he, hc⟩
      rw [if_neg (by simp [hex])] at hd
      obtain ⟨v, hveq, h1, _, _⟩ := hdir e hed hd
      refine ⟨v, ?_, h1⟩
      apply hperm.mem_iff.2
      apply List.mem_append_right
      rw [dps_eq_map dateOf cfg entries dps hd]
      rw [hveq]
      exact List.mem_map_of_mem _ hed

/-- C4: the move candidates are exactly the listed non-hidden files plus
(unless `-exclude-dirs`) the listed non-hidden, non-year-named directories;
hidden entries and year-named subdirectories never appear as the source of
any plan. -/
theorem c4_candidate_set (dateOf : String → Except String LocalDate)
    (cfg : AppEnv) (entries : List DirEntry) (pairs : List MovePair)
    (hwf : listingWf entries)
    (hb : buildPairs dateOf cfg entries = .ok pairs) :
    (∀ pr ∈ pairs, ∃ e ∈ entries,
      (isFileCand e = true ∨ (cfg.excludeDirs = false ∧ isDirCand e = true)) ∧
      pr.old = goJoin cfg.dir e.name) ∧
    (∀ e ∈ entries,
      (isFileCand e = true ∨ (cfg.excludeDirs = false ∧ isDirCand e = true)) →
      ∃ pr ∈ pairs, pr.old = goJoin cfg.dir e.name) ∧
    (∀ e ∈ entries,
      (leadsWith e.name.data ['.'] = true ∨
        (e.isDir = true ∧ goStrLen e.name = 4 ∧
          leadsWith e.name.data ['2', '0'] = true)) →
      ∀ pr ∈ pairs, pr.old ≠ goJoin cfg.dir e.name) := by
  obtain ⟨hsrc, hcomplete⟩ := batch_source dateOf cfg entries pairs hwf.1 hb
  refine ⟨?_, hcomplete, ?_⟩
  · intro pr hpr
    obtain ⟨e, he, hcand, hold, _, _⟩ := hsrc pr hpr
    exact ⟨e, he, hcand, hold⟩
  · intro e he hbad pr hpr heqold
    obtain ⟨e2, he2, hcand2, _, hbase2, _⟩ := hsrc pr hpr
    have hbase : goBase pr.old = e.name := by
      rw [heqold]
      exact goBase_goJoin_single _ _ (entryWf_data e (hwf.1 e he))
    have hnames : e2.name = e.name := by rw [← hbase2, hbase]
    have he2e : e2 = e := List.inj_on_of_nodup_map hwf.2 he2 he hnames
    subst he2e
    rcases hcand2 with hcf | ⟨_, hcd⟩
    · rw [isFileCand, Bool.and_eq_true, Bool.not_eq_true',
        Bool.not_eq_true'] at hcf
      rcases hbad with hhid | ⟨hdir, _, _⟩
      · rw [hcf.2] at hhid
        cases hhid
      · rw [hcf.1] at hdir
        cases hdir
    · rw [isDirCand, Bool.and_eq_true, Bool.and_eq_true,
        Bool.not_eq_true', Bool.not_eq_true'] at hcd
      rcases hbad with hhid | ⟨_, hlen, h20⟩
      · rw [hcd.1.2] at hhid
        cases hhid
      · have : (goStrLen e2.name = 4 && leadsWith e2.name.data ['2', '0']) =
            true := by
          rw [Bool.and_eq_true]
          exact ⟨by simpa using hlen, h20⟩
        rw [hcd.2] at this
        cases this

/-- Witness for C4: in a listing with a plain file, a hidden file, a
year-named directory and an ordinary directory, the file and the ordinary
directory are planned and the hidden and year-named entries never are. -/
theorem c4_candidate_set_witness :
    listingWf [⟨"a.txt", false⟩, ⟨".DS_Store", false⟩, ⟨"2021", true⟩,
      ⟨"Vacation", true⟩] ∧
    buildPairs (fun _ => Except.ok ⟨2023, 3⟩) ⟨".", false, false⟩
      [⟨"a.txt", false⟩, ⟨".DS_Store", false⟩, ⟨"2021", true⟩,
       ⟨"Vacation", true⟩] =
      .ok [⟨"Vacation", "2023/03/Vacation"⟩, ⟨"a.txt", "2023/03/doc/a.txt"⟩] ∧
    (∃ pr ∈ ([⟨"Vacation", "2023/03/Vacation"⟩,
        ⟨"a.txt", "2023/03/doc/a.txt"⟩] : List MovePair),
      pr.old = goJoin "." "a.txt") ∧
    (∀ pr ∈ ([⟨"Vacation", "2023/03/Vacation"⟩,
        ⟨"a.txt", "2023/03/doc/a.txt"⟩] : List MovePair),
      pr.old ≠ goJoin "." ".DS_Store") ∧
    (∀ pr ∈ ([⟨"Vacation", "2023/03/Vacation"⟩,
        ⟨"a.txt", "2023/03/doc/a.txt"⟩] : List MovePair),
      pr.old ≠ goJoin "." "2021") := by
  have h := c4_candidate_set (fun _ => Except.ok ⟨2023, 3⟩) ⟨".", false, false⟩
    [⟨"a.txt", false⟩, ⟨".DS_Store", false⟩, ⟨"2021", true⟩,
     ⟨"Vacation", true⟩]
    [⟨"Vacation", "2023/03/Vacation"⟩, ⟨"a.txt", "2023/03/doc/a.txt"⟩]
    (by decide) (by rfl)
  refine ⟨by decide, by rfl,
    h.2.1 ⟨"a.txt", false⟩ (by decide) (Or.inl (by decide)),
    h.2.2 ⟨".DS_Store", false⟩ (by decide) (Or.inl (by decide)),
    h.2.2 ⟨"2021", true⟩ (by decide) (Or.inr (by refine ⟨rfl, by decide, by decide⟩))⟩

/-- C10: every plan stays inside the target directory — each source is the
configured base directory joined with a listed entry's name, and each
destination is the base directory joined with a nonempty slash-chain of
well-formed (separator-free, non-`..`) components. -/
theorem c10_plans_stay_inside (dateOf : String → Except String LocalDate)
    (cfg : AppEnv) (entries : List DirEntry) (pairs : List MovePair)
    (hwf : listingWf entries)
    (hb : buildPairs dateOf cfg entries = .ok pairs) :
    ∀ pr ∈ pairs, (∃ e ∈ entries, pr.old = goJoin cfg.dir e.name) ∧
      ∃ parts, parts ≠ [] ∧ (∀ c ∈ parts, wfComp c) ∧
        pr.new = goJoin cfg.dir (String.mk (joinSl parts)) := by
  obtain ⟨hsrc, _⟩ := batch_source dateOf cfg entries pairs hwf.1 hb
  intro pr hpr
  obtain ⟨e, he, _, hold, _, hparts⟩ := hsrc pr hpr
  exact ⟨⟨e, he, hold⟩, hparts⟩

/-- Witness for C10 on a concrete listing under an absolute base
directory. -/
theorem c10_plans_stay_inside_witness :
    listingWf [⟨"a.txt", false⟩, ⟨"Vacation", true⟩] ∧
    buildPairs (fun _ => Except.ok ⟨2023, 3⟩) ⟨"/base", false, false⟩
      [⟨"a.txt", false⟩, ⟨"Vacation", true⟩] =
      .ok [⟨"/base/Vacation", "/base/2023/03/Vacation"⟩,
           ⟨"/base/a.txt", "/base/2023/03/doc/a.txt"⟩] ∧
    (∀ pr ∈ ([⟨"/base/Vacation", "/base/2023/03/Vacation"⟩,
        ⟨"/base/a.txt", "/base/2023/03/doc/a.txt"⟩] : List MovePair),
      (∃ e ∈ [⟨"a.txt", false⟩, (⟨"Vacation", true⟩ : DirEntry)],
        pr.old = goJoin "/base" e.name) ∧
      ∃ parts, parts ≠ [] ∧ (∀ c ∈ parts, wfComp c) ∧
        pr.new = goJoin "/base" (String.mk (joinSl parts))) := by
  refine ⟨by decide, by rfl, ?_⟩
  exact c10_plans_stay_inside (fun _ => Except.ok ⟨2023, 3⟩)
    ⟨"/base", false, false⟩ [⟨"a.txt", false⟩, ⟨"Vacation", true⟩]
    [⟨"/base/Vacation", "/base/2023/03/Vacation"⟩,
     ⟨"/base/a.txt", "/base/2023/03/doc/a.txt"⟩] (by decide) (by rfl)

/-! ### Executor-level lemmas -/

theorem execModel_error (dateOf : String → Except String LocalDate)
    (w : FsWorld) (cfg : AppEnv) (entries : List DirEntry) (e : String)
    (h : buildPairs dateOf cfg entries = .error e) :
    execModel dateOf w cfg entries = ⟨"", [], [], [], some e⟩ := by
  unfold execModel
  rw [h]

theorem execModel_dry (dateOf : String → Except String LocalDate)
    (w : FsWorld) (cfg : AppEnv) (entries : List DirEntry)
    (pairs : List MovePair) (hdry : cfg.dryRun = true)
    (hb : buildPairs dateOf cfg entries = .ok pairs) :
    execModel dateOf w cfg entries =
      ⟨csvRender (["old", "new"] :: pairs.map (fun p => [p.old, p.new])),
       [], [], [], none⟩ := by
  unfold execModel
  rw [hb, hdry]
  rfl

theorem execModel_apply (dateOf : String → Except String LocalDate)
    (w : FsWorld) (cfg : AppEnv) (entries : List DirEntry)
    (pairs : List MovePair) (hdry : cfg.dryRun = false)
    (hb : buildPairs dateOf cfg entries = .ok pairs) :
    execModel dateOf w cfg entries =
      ⟨"", (applyPairs w pairs).renamed, (applyPairs w pairs).attempted,
       (applyPairs w pairs).mkdirs, (applyPairs w pairs).err⟩ := by
  unfold execModel
  rw [hb, hdry]
  rfl

theorem filePlan_error_iff (dateOf : String → Except String LocalDate)
    (cfg : AppEnv) (p : String) (e : String) :
    filePlan dateOf cfg p = .error e ↔ dateOf p = .error e := by
  unfold filePlan buildName
  rcases h : dateOf p with e2 | d
  · constructor
    · intro hh
      cases hh
      rfl
    · intro hh
      cases hh
      rfl
  · constructor
    · intro hh
      cases hh
    · intro hh
      cases hh

theorem dirPlan_error_iff (dateOf : String → Except String LocalDate)
    (cfg : AppEnv) (p : String) (e : String) :
    dirPlan dateOf cfg p = .error e ↔ dateOf p = .error e := by
  unfold dirPlan
  rcases h : dateOf p with e2 | d
  · constructor
    · intro hh
      cases hh
      rfl
    · intro hh
      cases hh
      rfl
  · constructor
    · intro hh
      cases hh
    · intro hh
      cases hh

/-- C5: if the added-date lookup fails for any single eligible entry (file
or directory), batch construction aborts with the first such lookup's
error, and the run performs no renames, no rename attempts, no directory
creations, and writes nothing to standard output. -/
theorem c5_lookup_failure_all_or_nothing
    (dateOf : String → Except String LocalDate) (w : FsWorld) (cfg : AppEnv)
    (entries : List DirEntry)
    (hfail : ∃ p ∈ eligiblePaths cfg entries, ∃ e, dateOf p = .error e) :
    ∃ e, (∃ p ∈ eligiblePaths cfg entries, dateOf p = .error e) ∧
      execModel dateOf w cfg entries = ⟨"", [], [], [], some e⟩ := by
  obtain ⟨p, hp, e, hde⟩ := hfail
  rcases hfm : (filePaths cfg entries).mapM (filePlan dateOf cfg) with e2 | fps
  · obtain ⟨y, hy, hfy⟩ := mapM_error_mem _ _ _ hfm
    refine ⟨e2, ⟨y, List.mem_append_left _ hy,
      (filePlan_error_iff dateOf cfg y e2).1 hfy⟩, ?_⟩
    apply execModel_error
    unfold buildPairs
    rw [hfm]
  · rcases List.mem_append.1 hp with hpf | hpd
    · obtain ⟨_, hall⟩ := mapM_ok_eq _ _ _ hfm
      obtain ⟨v, hv⟩ := hall p hpf
      rw [(filePlan_error_iff dateOf cfg p _).2 hde] at hv
      cases hv
    · by_cases hex : cfg.excludeDirs
      · rw [if_pos hex] at hpd
        cases hpd
      · rw [if_neg hex] at hpd
        have hde2 : dirPlan dateOf cfg p = .error e :=
          (dirPlan_error_iff dateOf cfg p e).2 hde
        obtain ⟨e2, hdm, y, hy, hfy⟩ :=
          mapM_error_of_mem (dirPlan dateOf cfg) _ p hpd e hde2
        refine ⟨e2, ⟨y, List.mem_append_right _ (by rw [if_neg hex]; exact hy),
          (dirPlan_error_iff dateOf cfg y e2).1 hfy⟩, ?_⟩
        apply execModel_error
        unfold buildPairs
        rw [hfm, if_neg hex, hdm]

/-- Witness for C5: a single file whose date lookup fails produces the
empty outcome carrying that error. -/
theorem c5_lookup_failure_all_or_nothing_witness :
    (∃ p ∈ eligiblePaths ⟨".", false, false⟩ [⟨"a.txt", false⟩],
      ∃ e, (fun _ => (Except.error "could not read \"a.txt\"" :
        Except String LocalDate)) p = .error e) ∧
    ∃ e, (∃ p ∈ eligiblePaths ⟨".", false, false⟩ [⟨"a.txt", false⟩],
        (fun _ => (Except.error "could not read \"a.txt\"" :
          Except String LocalDate)) p = .error e) ∧
      execModel (fun _ => .error "could not read \"a.txt\"")
        ⟨fun _ => none, fun _ _ => none⟩ ⟨".", false, false⟩
        [⟨"a.txt", false⟩] = ⟨"", [], [], [], some e⟩ := by
  refine ⟨⟨"a.txt", by decide, "could not read \"a.txt\"", rfl⟩, ?_⟩
  exact c5_lookup_failure_all_or_nothing
    (fun _ => .error "could not read \"a.txt\"")
    ⟨fun _ => none, fun _ _ => none⟩ ⟨".", false, false⟩ [⟨"a.txt", false⟩]
    ⟨"a.txt", by decide, "could not read \"a.txt\"", rfl⟩

theorem applyPairs_partial (w : FsWorld) (ps1 : List MovePair) (p : MovePair)
    (ps2 : List MovePair) (e : String)
    (hs : ∀ q ∈ ps1, w.renameErr q.old q.new = none)
    (hf : w.renameErr p.old p.new = some e) :
    applyPairs w (ps1 ++ p :: ps2) =
      ⟨ps1.map (fun q => (q.old, q.new)),
       (ps1 ++ [p]).map (fun q => (q.old, q.new)),
       (ps1 ++ [p]).map (fun q => goDir q.new),
       some e⟩ := by
  induction ps1 with
  | nil =>
    rw [List.nil_append]
    unfold applyPairs
    rw [hf]
    rfl
  | cons q qs ih =>
    rw [List.cons_append]
    unfold applyPairs
    rw [hs q (by simp)]
    rw [ih (fun x hx => hs x (List.mem_cons_of_mem q hx))]
    rfl

theorem applyPairs_all_ok (w : FsWorld) (ps : List MovePair)
    (hs : ∀ q ∈ ps, w.renameErr q.old q.new = none) :
    applyPairs w ps =
      ⟨ps.map (fun q => (q.old, q.new)), ps.map (fun q => (q.old, q.new)),
       ps.map (fun q => goDir q.new), none⟩ := by
  induction ps with
  | nil => rfl
  | cons q qs ih =>
    unfold applyPairs
    rw [hs q (by simp)]
    rw [ih (fun x hx => hs x (List.mem_cons_of_mem q hx))]
    rfl

/-- C6: during non-dry-run execution, if the rename of plan `k` fails
(plans are `ps1 ++ p :: ps2` with `p` the first failing one), the run
returns that rename's error; the renames before it remain applied (no
rollback), the failing rename was attempted, and no rename after it is
attempted. -/
theorem c6_rename_failure_partial_apply
    (dateOf : String → Except String LocalDate) (w : FsWorld) (cfg : AppEnv)
    (entries : List DirEntry) (pairs ps1 ps2 : List MovePair) (p : MovePair)
    (e : String) (hdry : cfg.dryRun = false)
    (hb : buildPairs dateOf cfg entries = .ok pairs)
    (hsplit : pairs = ps1 ++ p :: ps2)
    (hs : ∀ q ∈ ps1, w.renameErr q.old q.new = none)
    (hf : w.renameErr p.old p.new = some e) :
    execModel dateOf w cfg entries =
      ⟨"", ps1.map (fun q => (q.old, q.new)),
       (ps1 ++ [p]).map (fun q => (q.old, q.new)),
       (ps1 ++ [p]).map (fun q => goDir q.new), some e⟩ := by
  rw [execModel_apply dateOf w cfg entries pairs hdry hb, hsplit,
    applyPairs_partial w ps1 p ps2 e hs hf]

/-- Witness for C6: with two planned files where the second rename fails,
the first rename remains applied, the second was attempted, and the
second's error is returned. -/
theorem c6_rename_failure_partial_apply_witness :
    (∀ q ∈ ([⟨"a.txt", "2023/03/doc/a.txt"⟩] : List MovePair),
      (fun old _ => if old = "b.txt" then some "EACCES" else none :
        String → String → Option String) q.old q.new = none) ∧
    execModel (fun _ => .ok ⟨2023, 3⟩)
      ⟨fun _ => none, fun old _ => if old = "b.txt" then some "EACCES" else none⟩
      ⟨".", false, false⟩ [⟨"a.txt", false⟩, ⟨"b.txt", false⟩] =
      ⟨"", [("a.txt", "2023/03/doc/a.txt")],
       [("a.txt", "2023/03/doc/a.txt"), ("b.txt", "2023/03/doc/b.txt")],
       ["2023/03/doc", "2023/03/doc"], some "EACCES"⟩ := by
  refine ⟨by decide, ?_⟩
  have h := c6_rename_failure_partial_apply (fun _ => .ok ⟨2023, 3⟩)
    ⟨fun _ => none, fun old _ => if old = "b.txt" then some "EACCES" else none⟩
    ⟨".", false, false⟩ [⟨"a.txt", false⟩, ⟨"b.txt", false⟩]
    [⟨"a.txt", "2023/03/doc/a.txt"⟩, ⟨"b.txt", "2023/03/doc/b.txt"⟩]
    [⟨"a.txt", "2023/03/doc/a.txt"⟩] []
    ⟨"b.txt", "2023/03/doc/b.txt"⟩ "EACCES" rfl (by rfl) rfl
    (by decide) (by decide)
  rw [h]
  rfl

/-- C7: with dry-run enabled, execution performs no filesystem mutation —
no renames (applied or attempted) and no directory creations — and when
the batch builds, the report is the CSV of a header row plus exactly one
data row per plan, whose count equals the number of eligible entries. -/
theorem c7_dry_run_no_mutation (dateOf : String → Except String LocalDate)
    (w : FsWorld) (cfg : AppEnv) (entries : List DirEntry)
    (hdry : cfg.dryRun = true) :
    (execModel dateOf w cfg entries).renamed = [] ∧
    (execModel dateOf w cfg entries).attempted = [] ∧
    (execModel dateOf w cfg entries).mkdirs = [] ∧
    ∀ pairs, buildPairs dateOf cfg entries = .ok pairs →
      (execModel dateOf w cfg entries).stdout =
        csvRender (["old", "new"] :: pairs.map (fun p => [p.old, p.new])) ∧
      pairs.length = (entries.filter isFileCand).length +
        (if cfg.excludeDirs then 0 else (entries.filter isDirCand).length) := by
  have hout : (execModel dateOf w cfg entries).renamed = [] ∧
      (execModel dateOf w cfg entries).attempted = [] ∧
      (execModel dateOf w cfg entries).mkdirs = [] := by
    rcases hb : buildPairs dateOf cfg entries with e | pairs
    · rw [execModel_error dateOf w cfg entries e hb]
      exact ⟨rfl, rfl, rfl⟩
    · rw [execModel_dry dateOf w cfg entries pairs hdry hb]
      exact ⟨rfl, rfl, rfl⟩
  refine ⟨hout.1, hout.2.1, hout.2.2, ?_⟩
  intro pairs hb
  refine ⟨by rw [execModel_dry dateOf w cfg entries pairs hdry hb], ?_⟩
  obtain ⟨fps, dps, hf, hd, heq⟩ := buildPairs_ok dateOf cfg entries pairs hb
  have hlen : pairs.length = fps.length + dps.length := by
    rw [heq, (sortByDest_perm (fps ++ dps)).length_eq, List.length_append]
  rw [hlen]
  have hflen : fps.length = (entries.filter isFileCand).length := by
    rw [fps_eq_map dateOf cfg entries fps hf, List.length_map]
  have hdlen : dps.length =
      (if cfg.excludeDirs then 0 else (entries.filter isDirCand).length) := by
    by_cases hex : cfg.excludeDirs
    · rw [if_pos hex] at hd ⊢
      rw [← Except.ok.inj hd]
      rfl
    · rw [if_neg hex] at hd ⊢
      rw [dps_eq_map dateOf cfg entries dps hd, List.length_map]
  rw [hflen, hdlen]

/-- Witness for C7 on a concrete dry run over one file and one directory. -/
theorem c7_dry_run_no_mutation_witness :
    (execModel (fun _ => .ok ⟨2023, 3⟩) ⟨fun _ => none, fun _ _ => none⟩
      ⟨".", false, true⟩ [⟨"a.txt", false⟩, ⟨"Vacation", true⟩]).renamed = [] ∧
    (execModel (fun _ => .ok ⟨2023, 3⟩) ⟨fun _ => none, fun _ _ => none⟩
      ⟨".", false, true⟩ [⟨"a.txt", false⟩, ⟨"Vacation", true⟩]).mkdirs = [] ∧
    (execModel (fun _ => .ok ⟨2023, 3⟩) ⟨fun _ => none, fun _ _ => none⟩
      ⟨".", false, true⟩ [⟨"a.txt", false⟩, ⟨"Vacation", true⟩]).stdout =
      csvRender [["old", "new"], ["Vacation", "2023/03/Vacation"],
        ["a.txt", "2023/03/doc/a.txt"]] ∧
    ([⟨"Vacation", "2023/03/Vacation"⟩,
      ⟨"a.txt", "2023/03/doc/a.txt"⟩] : List MovePair).length = 2 := by
  have h := c7_dry_run_no_mutation (fun _ => .ok ⟨2023, 3⟩)
    ⟨fun _ => none, fun _ _ => none⟩ ⟨".", false, true⟩
    [⟨"a.txt", false⟩, ⟨"Vacation", true⟩] rfl
  obtain ⟨h1, _, h3, h4⟩ := h
  obtain ⟨h5, h6⟩ := h4 [⟨"Vacation", "2023/03/Vacation"⟩,
    ⟨"a.txt", "2023/03/doc/a.txt"⟩] (by rfl)
  exact ⟨h1, h3, h5, by rw [h6]; rfl⟩

theorem leadsWith_slash (l : List Char) :
    leadsWith l ['/'] = true ↔ ∃ t, l = '/' :: t := by
  cases l with
  | nil => simp [leadsWith]
  | cons c cs =>
    simp only [leadsWith]
    constructor
    · intro h
      have : c = '/' := by simpa using h
      exact ⟨cs, by rw [this]⟩
    · intro ⟨t, ht⟩
      cases ht
      simp [leadsWith]

theorem goIsAbs_goJoin (dirs x : String) (h : goIsAbs dirs = true) :
    goIsAbs (goJoin dirs x) = true := by
  unfold goIsAbs at h
  obtain ⟨t, ht⟩ := (leadsWith_slash dirs.data).1 h
  have hne : dirs ≠ "" := by
    intro hh
    rw [hh] at ht
    cases ht
  unfold goJoin
  rw [if_neg hne]
  unfold goIsAbs goClean
  rw [data_mk, data_mk, ht, List.cons_append]
  simp [goCleanL, leadsWith]

/-- Counterexample to C8 as stated: with the default configuration
`-dir .`, the dry-run report's single data row carries the joined paths
`a.txt` and `2023/03/doc/a.txt`, neither of which is an absolute path —
the report does not contain absolute source and destination paths. -/
theorem c8_absolute_paths_counterexample :
    execModel (fun _ => .ok ⟨2023, 3⟩) ⟨fun _ => none, fun _ _ => none⟩
      ⟨".", false, true⟩ [⟨"a.txt", false⟩] =
      ⟨"old,new\na.txt,2023/03/doc/a.txt\n", [], [], [], none⟩ ∧
    "old,new\na.txt,2023/03/doc/a.txt\n" =
      csvRender [["old", "new"], ["a.txt", "2023/03/doc/a.txt"]] ∧
    goIsAbs "a.txt" = false ∧ goIsAbs "2023/03/doc/a.txt" = false := by
  exact ⟨by rfl, by rfl, by decide, by decide⟩

/-- C8 amended: in dry-run mode the report written to standard output is
CSV with header row `old,new` followed by one data row per plan in the
destination-sorted batch order; each data row carries the source and
destination paths as joined with the configured directory — these are
absolute exactly when `-dir` is absolute (with the default `.` they are
relative). -/
theorem c8_report_format (dateOf : String → Except String LocalDate)
    (w : FsWorld) (cfg : AppEnv) (entries : List DirEntry)
    (pairs : List MovePair) (hwf : listingWf entries)
    (hdry : cfg.dryRun = true)
    (hb : buildPairs dateOf cfg entries = .ok pairs) :
    (execModel dateOf w cfg entries).stdout =
      csvRender (["old", "new"] :: pairs.map (fun p => [p.old, p.new])) ∧
    (goIsAbs cfg.dir = true →
      ∀ pr ∈ pairs, goIsAbs pr.old = true ∧ goIsAbs pr.new = true) := by
  refine ⟨by rw [execModel_dry dateOf w cfg entries pairs hdry hb], ?_⟩
  intro habs pr hpr
  obtain ⟨hsrc, _⟩ := batch_source dateOf cfg entries pairs hwf.1 hb
  obtain ⟨e, _, _, hold, _, parts, _, _, hnew⟩ := hsrc pr hpr
  constructor
  · rw [hold]
    exact goIsAbs_goJoin _ _ habs
  · rw [hnew]
    exact goIsAbs_goJoin _ _ habs

/-- Witness for the amended C8 with an absolute base directory. -/
theorem c8_report_format_witness :
    (execModel (fun _ => .ok ⟨2023, 3⟩) ⟨fun _ => none, fun _ _ => none⟩
      ⟨"/base", false, true⟩ [⟨"a.txt", false⟩]).stdout =
      csvRender (["old", "new"] ::
        ([⟨"/base/a.txt", "/base/2023/03/doc/a.txt"⟩] : List MovePair).map
          (fun p => [p.old, p.new])) ∧
    (goIsAbs ("/base" : String) = true →
      ∀ pr ∈ ([⟨"/base/a.txt", "/base/2023/03/doc/a.txt"⟩] : List MovePair),
        goIsAbs pr.old = true ∧ goIsAbs pr.new = true) := by
  exact c8_report_format (fun _ => .ok ⟨2023, 3⟩)
    ⟨fun _ => none, fun _ _ => none⟩ ⟨"/base", false, true⟩
    [⟨"a.txt", false⟩] [⟨"/base/a.txt", "/base/2023/03/doc/a.txt"⟩]
    (by decide) rfl (by rfl)

/-- Counterexample to C9 as stated: a run in which `os.MkdirAll` fails for
every invoked directory (the world reports `EACCES` for each) yet both
renames succeed: execution is not aborted, all renames are applied and the
returned error is `none` — the directory-creation error is never
surfaced, because `Exec` explicitly discards it (`_ = os.MkdirAll(...)`). -/
theorem c9_mkdir_error_ignored_counterexample :
    (FsWorld.mkdirErr ⟨fun _ => some "EACCES", fun _ _ => none⟩
      "2023/03/doc" = some "EACCES") ∧
    execModel (fun _ => .ok ⟨2023, 3⟩)
      ⟨fun _ => some "EACCES", fun _ _ => none⟩ ⟨".", false, false⟩
      [⟨"a.txt", false⟩, ⟨"b.txt", false⟩] =
      ⟨"", [("a.txt", "2023/03/doc/a.txt"), ("b.txt", "2023/03/doc/b.txt")],
       [("a.txt", "2023/03/doc/a.txt"), ("b.txt", "2023/03/doc/b.txt")],
       ["2023/03/doc", "2023/03/doc"], none⟩ := by
  exact ⟨rfl, by rfl⟩

theorem applyPairs_mkdir_irrelevant (mk mk' : String → Option String)
    (rn : String → String → Option String) (ps : List MovePair) :
    applyPairs ⟨mk, rn⟩ ps = applyPairs ⟨mk', rn⟩ ps := by
  induction ps with
  | nil => rfl
  | cons p rest ih =>
    unfold applyPairs
    rcases h : rn p.old p.new with _ | e
    · simp only [h, ih]
    · simp only [h]

/-- C9 amended: the outcome of execution (report, applied and attempted
renames, invoked directory creations, returned error) is entirely
independent of the directory-creation outcomes: `Exec` discards
`os.MkdirAll`'s error and proceeds, so only a rename failure aborts the
run, and the error surfaced is the rename's, never the directory
creation's. -/
theorem c9_mkdir_failure_not_surfaced (dateOf : String → Except String LocalDate)
    (mk mk' : String → Option String) (rn : String → String → Option String)
    (cfg : AppEnv) (entries : List DirEntry) :
    execModel dateOf ⟨mk, rn⟩ cfg entries =
      execModel dateOf ⟨mk', rn⟩ cfg entries := by
  unfold execModel
  rcases hb : buildPairs dateOf cfg entries with e | pairs
  · rfl
  · rcases hdr : cfg.dryRun with _ | _
    · simp only [Bool.false_eq_true, if_false,
        applyPairs_mkdir_irrelevant mk mk' rn pairs]
    · rfl
